import Mathlib

/-!
Verification of the MySQL `Duration` codec module
(`src/coprocessor/codec/mysql/duration.rs`).

The development shallowly embeds the module: the bit-packed `u64` scalar is a
`Nat` wrapped in a structure, machine-integer casts are made explicit where
they can fire, the nom parser combinators are translated into functions on
`List Char` returning `Option`, and fallible operations return `Except Err`.
-/

namespace MysqlTime

/-- Error conditions raised by the module (the Rust code raises them all
through the `invalid_type!` macro with distinct messages; we keep the
distinct conditions as constructors). -/
inductive Err where
  | invalidTimeFormat : Err
  | invalidHour (v : Nat) : Err
  | invalidMinute (v : Nat) : Err
  | invalidSecond (v : Nat) : Err
  | invalidFraction (v : Nat) : Err
  | invalidFsp (v : Int) : Err
  | microsOverflow : Err
deriving DecidableEq, Repr

instance {α β : Type} [DecidableEq α] [DecidableEq β] : DecidableEq (Except α β) :=
  fun x y =>
    match x, y with
    | .ok a, .ok b =>
      if h : a = b then isTrue (by rw [h]) else isFalse (by intro hc; cases hc; exact h rfl)
    | .error a, .error b =>
      if h : a = b then isTrue (by rw [h]) else isFalse (by intro hc; cases hc; exact h rfl)
    | .ok _, .error _ => isFalse (by intro hc; cases hc)
    | .error _, .ok _ => isFalse (by intro hc; cases hc)

/-- Modelled from the spec: the shared powers-of-ten lookup table `TEN_POW`
(a static array of powers of ten indexed by digit width) lives in the parent
`codec` module, outside this file's source; the spec describes it as a
"static lookup table indexed by digit-width". -/
def TEN_POW (i : Nat) : Nat := 10 ^ i

def NANOS_PER_SEC : Int := 1000000000
def MICROS_PER_SEC : Int := 1000000
def MICRO_WIDTH : Nat := 6

def MAX_HOURS : Nat := 838
def MAX_MINUTES : Nat := 59
def MAX_SECONDS : Nat := 59
def MAX_MICROS : Nat := 999999

def check_hour (hour : Nat) : Except Err Nat :=
  if hour > MAX_HOURS then .error (.invalidHour hour) else .ok hour

def check_minute (minute : Nat) : Except Err Nat :=
  if minute > MAX_MINUTES then .error (.invalidMinute minute) else .ok minute

def check_second (second : Nat) : Except Err Nat :=
  if second > MAX_SECONDS then .error (.invalidSecond second) else .ok second

def check_micros (micros : Nat) : Except Err Nat :=
  if micros > MAX_MICROS then .error (.invalidFraction micros) else .ok micros

/-- Modelled from the spec: `check_fsp` lives in the parent `mysql` module,
outside this file's source.  The spec (§7) says a requested precision outside
`0..=6` is rejected before any parsing/rounding begins. -/
def check_fsp (fsp : Int) : Except Err Nat :=
  if fsp < 0 ∨ 6 < fsp then .error (.invalidFsp fsp) else .ok fsp.toNat

/-- Two's-complement cast of an `i32` value to `u32` (`as u32` in Rust). -/
def u32_of_i32 (x : Int) : Nat := (x % 4294967296).toNat

/-- Reinterpretation of a `u32` sum as `i32` (`as i32` in Rust). -/
def i32_of_u32 (n : Nat) : Int := (n % 4294967296 + 2147483648) % 4294967296 - 2147483648

/-- Two's-complement cast of an `i64` value to `i8` (`as i8` in Rust). -/
def i8_of_i64 (x : Int) : Int := (x + 128) % 256 - 128

/-! ## The bit-packed scalar

The Rust `bitfield!` macro packs, inside one `u64`:
bit 63 `neg`, bit 62 `reserved`, bits 61..48 `hours`, bits 47..40 `minutes`,
bits 39..32 `secs`, bits 31..8 `micros`, bits 7..0 `fsp`.
Getters extract the field; setters overwrite exactly the field's bits,
truncating the new value to the field width. -/

def getBits (bits lo w : Nat) : Nat := bits / 2 ^ lo % 2 ^ w

def setBits (bits lo w v : Nat) : Nat :=
  bits - getBits bits lo w * 2 ^ lo + v % 2 ^ w * 2 ^ lo

structure Duration where
  bits : Nat
deriving DecidableEq, Repr

def Duration.to_bits (d : Duration) : Nat := d.bits

def Duration.get_neg (d : Duration) : Bool := getBits d.bits 63 1 == 1
def Duration.get_reserved (d : Duration) : Bool := getBits d.bits 62 1 == 1
def Duration.hours (d : Duration) : Nat := getBits d.bits 48 14
def Duration.minutes (d : Duration) : Nat := getBits d.bits 40 8
def Duration.secs (d : Duration) : Nat := getBits d.bits 32 8
def Duration.micros (d : Duration) : Nat := getBits d.bits 8 24
def Duration.fsp (d : Duration) : Nat := getBits d.bits 0 8

def Duration.set_neg (d : Duration) (b : Bool) : Duration :=
  ⟨setBits d.bits 63 1 (cond b 1 0)⟩
def Duration.set_reserved (d : Duration) (b : Bool) : Duration :=
  ⟨setBits d.bits 62 1 (cond b 1 0)⟩
def Duration.set_hours (d : Duration) (v : Nat) : Duration := ⟨setBits d.bits 48 14 v⟩
def Duration.set_minutes (d : Duration) (v : Nat) : Duration := ⟨setBits d.bits 40 8 v⟩
def Duration.set_secs (d : Duration) (v : Nat) : Duration := ⟨setBits d.bits 32 8 v⟩
def Duration.set_micros (d : Duration) (v : Nat) : Duration := ⟨setBits d.bits 8 24 v⟩
def Duration.set_fsp (d : Duration) (v : Nat) : Duration := ⟨setBits d.bits 0 8 v⟩

/-- `Duration::new`: the unchecked internal constructor (a chain of setter
calls on an all-zero word). -/
def Duration.new (neg : Bool) (hours minutes secs micros fsp : Nat) : Duration :=
  ((((((⟨0⟩ : Duration).set_neg neg).set_hours hours).set_minutes
      minutes).set_secs secs).set_micros micros).set_fsp fsp

def Duration.zero : Duration := ⟨0⟩

def Duration.is_zero (d : Duration) : Bool :=
  ((d.set_neg false).set_fsp 0).to_bits == 0

def Duration.abs (d : Duration) : Duration := d.set_neg false

def Duration.subsec_micros (d : Duration) : Nat := d.micros

def Duration.maximize_fsp (d : Duration) : Duration := d.set_fsp 6

/-- `Duration::to_secs`: whole seconds as an `i32`, sign applied. -/
def Duration.to_secs (d : Duration) : Int :=
  let secs := i32_of_u32 (d.hours * 3600 + d.minutes * 60 + d.secs)
  if d.get_neg then -secs else secs

/-- `Duration::to_nanos`: `secs + (if neg { -micros } else { micros }) * 1000`
where `secs` is the (already signed) whole-second count scaled to
nanoseconds.  (In Rust the `* 1000` multiplies the whole if-else
expression.) -/
def Duration.to_nanos (d : Duration) : Int :=
  let secs := d.to_secs * NANOS_PER_SEC
  let micros : Int := d.subsec_micros
  secs + (if d.get_neg then -micros else micros) * 1000

/-- `Duration::from_bits`: validate every magnitude field, then clear the
reserved bit. -/
def Duration.from_bits (v : Nat) : Except Err Duration :=
  let duration : Duration := ⟨v⟩
  match check_micros duration.micros with
  | .error e => .error e
  | .ok _ =>
    match check_second duration.secs with
    | .error e => .error e
    | .ok _ =>
      match check_minute duration.minutes with
      | .error e => .error e
      | .ok _ =>
        match check_hour duration.hours with
        | .error e => .error e
        | .ok _ => .ok (duration.set_reserved false)

/-- The shared rounding/carry routine `round` (free function in the source;
mutates four `&mut u32` fields, here returned as a tuple). -/
def round (hours minutes secs micros : Nat) (fsp : Nat) :
    Except Err (Nat × Nat × Nat × Nat) :=
  let micros := if micros < 1000000 then micros * 10 else micros
  let micros :=
    if fsp = MICRO_WIDTH then (micros + 5) / 10
    else (micros / TEN_POW (MICRO_WIDTH - fsp) + 5) / 10 * TEN_POW (MICRO_WIDTH - fsp)
  let (hours, minutes, secs, micros) :=
    if 1000000 ≤ micros then
      let micros := micros - 1000000
      let secs := secs + 1
      let (secs, minutes) := if 60 ≤ secs then (secs - 60, minutes + 1) else (secs, minutes)
      let (minutes, hours) := if 60 ≤ minutes then (minutes - 60, hours + 1) else (minutes, hours)
      (hours, minutes, secs, micros)
    else (hours, minutes, secs, micros)
  match check_hour hours with
  | .error e => .error e
  | .ok _ => .ok (hours, minutes, secs, micros)

/-! ## The nom grammar (`mod parser` in the source)

Parsers become functions on `List Char`; a nom `IResult` failure becomes
`none`; combinators that cannot fail return the pair directly.  `opt!`
backtracks the input on failure, `peek!` consumes nothing, `eof!` succeeds
exactly on empty input, `multispace0/1` consume `' '`, `'\t'`, `'\r'`,
`'\n'`. -/

namespace parser

def isSpace (c : Char) : Bool := c == ' ' || c == '\t' || c == '\r' || c == '\n'

def dropSpaces (s : List Char) : List Char := s.dropWhile isSpace

def headIsDigit (s : List Char) : Bool :=
  match s with
  | c :: _ => c.isDigit
  | [] => false

def headIsDot (s : List Char) : Bool :=
  match s with
  | c :: _ => c == '.'
  | [] => false

def buf_to_int (buf : List Char) : Nat :=
  buf.foldl (fun acc c => acc * 10 + (c.toNat - '0'.toNat)) 0

/-- nom's `digit1`: one or more ASCII digits. -/
def digit1 (s : List Char) : Option (List Char × List Char) :=
  let buf := s.takeWhile Char.isDigit
  if buf.isEmpty then none else some (s.dropWhile Char.isDigit, buf)

/-- `read_int`: at most 7 digits, else a hard failure. -/
def read_int (s : List Char) : Option (List Char × Nat) :=
  match digit1 s with
  | none => none
  | some (rest, buf) => if buf.length ≤ 7 then some (rest, buf_to_int buf) else none

/-- `read_int_with_fsp`: reads all digits, keeps the first `fsp + 1` of them
and scales the value to (7-aligned) microsecond width. -/
def read_int_with_fsp (s : List Char) (fsp : Nat) : Option (List Char × Nat) :=
  match digit1 s with
  | none => none
  | some (rest, buf) =>
    let (fraction, len) :=
      if fsp ≥ buf.length then (buf_to_int buf, buf.length)
      else (buf_to_int (buf.take (fsp + 1)), fsp + 1)
    some (rest, fraction * TEN_POW (MICRO_WIDTH - len))

/-- `neg`: an optional `'-'`, whitespace, then a peeked digit or `'.'`. -/
def negSign (s : List Char) : Option (List Char × Bool) :=
  let (neg, s) := match s with
    | '-' :: rest => (true, rest)
    | _ => (false, s)
  let s := dropSpaces s
  if headIsDigit s || headIsDot s then some (s, neg) else none

/-- `day`: an integer accepted only when followed by whitespace-then-digit,
or by optional whitespace and then `'.'` or end of input; otherwise the
whole rule backtracks (`opt!`). -/
def day (s : List Char) : List Char × Option Nat :=
  match read_int s with
  | none => (s, none)
  | some (s1, v) =>
    let s2 := dropSpaces s1
    if (match s1 with | c :: _ => isSpace c | [] => false) && headIsDigit s2 then
      (s2, some v)
    else if headIsDot s2 || s2.isEmpty then (s2, some v)
    else (s, none)

/-- `separator`: optional whitespace, optional `':'`, optional whitespace;
reports whether the `':'` was present. -/
def separator (s : List Char) : List Char × Bool :=
  let s := dropSpaces s
  match s with
  | ':' :: rest => (dropSpaces rest, true)
  | _ => (s, false)

/-- The `hour` part of `hhmmss`: `opt!(map_res!(read_int, check_hour))` —
an over-bound hour backtracks to `None`. -/
def hourOpt (s : List Char) : List Char × Option Nat :=
  match read_int s with
  | some (s1, v) => if v ≤ MAX_HOURS then (s1, some v) else (s, none)
  | none => (s, none)

/-- The `minute` part: required (and range-checked) exactly when the first
separator carried a `':'`. -/
def minuteCond (s : List Char) (flag : Bool) : Option (List Char × Option Nat) :=
  if flag then
    match read_int s with
    | some (s1, v) => if v ≤ MAX_MINUTES then some (s1, some v) else none
    | none => none
  else some (s, none)

/-- The `second` part, analogous to `minute`. -/
def secondCond (s : List Char) (flag : Bool) : Option (List Char × Option Nat) :=
  if flag then
    match read_int s with
    | some (s1, v) => if v ≤ MAX_SECONDS then some (s1, some v) else none
    | none => none
  else some (s, none)

/-- `opt!(complete!(char!('.')))`: consume a leading dot when present. -/
def stripDot (s : List Char) : List Char :=
  match s with
  | '.' :: rest => rest
  | _ => s

/-- `fraction`: whitespace, optional `'.'`, optional digit run (read through
`read_int_with_fsp`), whitespace. -/
def fraction (s : List Char) (fsp : Nat) : List Char × Option Nat :=
  let s := stripDot (dropSpaces s)
  match read_int_with_fsp s fsp with
  | some (s1, v) => (dropSpaces s1, some v)
  | none => (dropSpaces s, none)

/-- The parsed raw field tuple `(neg, [day, hour, minute, second, fraction])`. -/
structure Fields where
  day : Option Nat
  hour : Option Nat
  minute : Option Nat
  second : Option Nat
  fraction : Option Nat
deriving DecidableEq, Repr

/-- `parser::parse`: whitespace, sign, day, hhmmss, fraction, end of input. -/
def parse (input : List Char) (fsp : Nat) : Option (Bool × Fields) :=
  let s := dropSpaces input
  match negSign s with
  | none => none
  | some (s, neg) =>
    let (s, dayV) := day s
    let (s, hourV) := hourOpt s
    let (s, hasMinute) := separator s
    match minuteCond s hasMinute with
    | none => none
    | some (s, minuteV) =>
      let (s, hasSecond) := separator s
      match secondCond s hasSecond with
      | none => none
      | some (s, secondV) =>
        let (s, fractionV) := fraction s fsp
        if s.isEmpty then some (neg, ⟨dayV, hourV, minuteV, secondV, fractionV⟩)
        else none

end parser

/-! ## Construction paths -/

/-- Lines 479–491 of `Duration::parse`: the day/block reinterpretation and
the combination of the five optional fields into concrete magnitudes. -/
def combineFields (day hour minute second micros : Option Nat) :
    Nat × Nat × Nat × Nat :=
  let (day, hour, minute, second) :=
    match day, hour with
    | some block, none =>
      (none, some (block / 10000), some (block / 100 % 100), some (block % 100))
    | _, _ => (day, hour, minute, second)
  (hour.getD 0 + day.getD 0 * 24, minute.getD 0, second.getD 0, micros.getD 0)

/-- `Duration::parse`. -/
def Duration.parse (input : List Char) (fsp : Int) : Except Err Duration :=
  if input.isEmpty then .error .invalidTimeFormat
  else
    match check_fsp fsp with
    | .error e => .error e
    | .ok fsp =>
      match parser.parse input fsp with
      | none => .error .invalidTimeFormat
      | some (neg, f) =>
        let (hour, minute, second, micros) :=
          combineFields f.day f.hour f.minute f.second f.fraction
        let neg := if hour = 0 ∧ minute = 0 ∧ second = 0 ∧ micros = 0 then false else neg
        match round hour minute second micros fsp with
        | .error e => .error e
        | .ok (h, m, s, mi) => .ok (Duration.new neg h m s mi fsp)

/-- `Duration::round_frac`. -/
def Duration.round_frac (d : Duration) (fsp : Int) : Except Err Duration :=
  match check_fsp fsp with
  | .error e => .error e
  | .ok fsp =>
    if d.fsp ≤ fsp then .ok (d.set_fsp fsp)
    else
      match round d.hours d.minutes d.secs d.micros fsp with
      | .error e => .error e
      | .ok (h, m, s, mi) => .ok (Duration.new d.get_neg h m s mi fsp)

/-- `Duration::from_micros` (signed microsecond count; `i64` arithmetic
truncates toward zero, the hour decomposition is cast `as u32`). -/
def Duration.from_micros (micros : Int) (fsp : Int) : Except Err Duration :=
  match check_fsp fsp with
  | .error e => .error e
  | .ok fsp =>
    let neg := micros < 0
    let secs := (micros.tdiv MICROS_PER_SEC).natAbs
    let microsN := (micros.tmod MICROS_PER_SEC).natAbs
    let hours := secs / 3600 % 4294967296
    let minutes := secs % 3600 / 60
    let secsN := secs % 60
    match round hours minutes secsN microsN fsp with
    | .error e => .error e
    | .ok (h, m, s, mi) => .ok (Duration.new neg h m s mi fsp)

/-- `Duration::from_nanos`. -/
def Duration.from_nanos (nanos : Int) (fsp : Int) : Except Err Duration :=
  Duration.from_micros (nanos.tdiv 1000) fsp

/-- `Duration::from_millis` (fails on `i64` multiplication overflow). -/
def Duration.from_millis (millis : Int) (fsp : Int) : Except Err Duration :=
  if millis * 1000 < -9223372036854775808 ∨ 9223372036854775807 < millis * 1000 then
    .error .microsOverflow
  else Duration.from_micros (millis * 1000) fsp

/-! ## Comparison, equality, hashing -/

/-- `Ord::cmp` on `u64`. -/
def natCmp (x y : Nat) : Ordering :=
  if x < y then .lt else if x = y then .eq else .gt

/-- `Ord::cmp` on `i64`-like signed values. -/
def intCmp (x y : Int) : Ordering :=
  if x < y then .lt else if x = y then .eq else .gt

/-- `PartialEq for Duration`: compare the raw words with `fsp` zeroed. -/
def eqDur (a b : Duration) : Bool := (a.set_fsp 0).bits == (b.set_fsp 0).bits

/-- `Hash for Duration` feeds exactly this word to the hasher. -/
def hashKey (d : Duration) : Nat := (d.set_fsp 0).to_bits

/-- `PartialOrd/Ord for Duration`: compare the words with `fsp` zeroed and
reverse the ordering when either operand is negative. -/
def cmpDur (a b : Duration) : Ordering :=
  let a0 := a.set_fsp 0
  let b0 := b.set_fsp 0
  let ordering := natCmp a0.bits b0.bits
  if a0.get_neg || b0.get_neg then ordering.swap else ordering

/-- The `<` of `PartialOrd`. -/
def ltDur (a b : Duration) : Bool := cmpDur a b == Ordering.lt

/-! ## Checked arithmetic -/

theorem Duration.abs_get_neg (d : Duration) : d.abs.get_neg = false := by
  have h : getBits d.abs.bits 63 1 = 0 := by
    simp only [Duration.abs, Duration.set_neg, setBits, getBits, Bool.cond_false]
    omega
  simp [Duration.get_neg, h]

/-- The `(false, false)` arm of `Duration::checked_add`: magnitude fields
added with upward carry propagation and the hour bound check. -/
def Duration.add_nn (a b : Duration) : Option Duration :=
  let micros := a.micros + b.micros
  let secs := a.secs + b.secs
  let minutes := a.minutes + b.minutes
  let hours := a.hours + b.hours
  let (micros, secs) :=
    if 1000000 ≤ micros then (micros - 1000000, secs + 1) else (micros, secs)
  let (secs, minutes) := if 60 ≤ secs then (secs - 60, minutes + 1) else (secs, minutes)
  let (minutes, hours) :=
    if 60 ≤ minutes then (minutes - 60, hours + 1) else (minutes, hours)
  if MAX_HOURS < hours then none
  else some (Duration.new false hours minutes secs micros (max a.fsp b.fsp))

/-- The `(false, false)` arm of `Duration::checked_sub`: operands ordered by
the `PartialOrd` comparison, then field-wise `i32` subtraction with downward
borrow propagation and `as u32` casts into the constructor. -/
def Duration.sub_nn (a b : Duration) : Option Duration :=
  let neg := ltDur a b
  let (l, r) := cond neg (b, a) (a, b)
  let micros : Int := (l.micros : Int) - (r.micros : Int)
  let secs : Int := (l.secs : Int) - (r.secs : Int)
  let minutes : Int := (l.minutes : Int) - (r.minutes : Int)
  let hours : Int := (l.hours : Int) - (r.hours : Int)
  let (micros, secs) := if micros < 0 then (micros + 1000000, secs - 1) else (micros, secs)
  let (secs, minutes) := if secs < 0 then (secs + 60, minutes - 1) else (secs, minutes)
  let (minutes, hours) := if minutes < 0 then (minutes + 60, hours - 1) else (minutes, hours)
  some (Duration.new neg (u32_of_i32 hours) (u32_of_i32 minutes) (u32_of_i32 secs)
    (u32_of_i32 micros) (max a.fsp b.fsp))

/-- `Duration::checked_add`: the source `match`es on
`(self.get_neg(), rhs.get_neg())` and recurses into `checked_sub` (and vice
versa) on sign-adjusted operands; every recursive call reaches a
non-negative arm after at most two steps.  The definition here is that
terminating recursion written as an explicit case analysis; the theorems
`checked_add_ft_eq`, `checked_add_tf_eq`, `checked_add_tt_eq`,
`checked_sub_ft_eq`, `checked_sub_tf_eq` and `checked_sub_tt_eq` below
re-state the source's recursive arms literally and are proved of these
definitions. -/
def Duration.checked_add (a b : Duration) : Option Duration :=
  match a.get_neg, b.get_neg with
  | false, true => Duration.sub_nn a b.abs
  | true, false => Duration.sub_nn b a.abs
  | true, true => (Duration.add_nn a.abs b.abs).map fun res => res.set_neg true
  | false, false => Duration.add_nn a b

/-- `Duration::checked_sub`; see `Duration.checked_add`. -/
def Duration.checked_sub (a b : Duration) : Option Duration :=
  match a.get_neg, b.get_neg with
  | false, true => Duration.add_nn a b.abs
  | true, false => (Duration.add_nn a.abs b.abs).map fun res => res.set_neg true
  | true, true => Duration.sub_nn b.abs a.abs
  | false, false => Duration.sub_nn a b

/-- Source arm `(false, true)` of `checked_add`: `self.checked_sub(rhs.abs())`. -/
theorem checked_add_ft_eq (a b : Duration) (ha : a.get_neg = false)
    (hb : b.get_neg = true) : a.checked_add b = a.checked_sub b.abs := by
  simp only [Duration.checked_add, Duration.checked_sub, ha, hb, Duration.abs_get_neg]

/-- Source arm `(true, false)` of `checked_add`: `rhs.checked_sub(self.abs())`. -/
theorem checked_add_tf_eq (a b : Duration) (ha : a.get_neg = true)
    (hb : b.get_neg = false) : a.checked_add b = b.checked_sub a.abs := by
  simp only [Duration.checked_add, Duration.checked_sub, ha, hb, Duration.abs_get_neg]

/-- Source arm `(true, true)` of `checked_add`:
`self.abs().checked_add(rhs.abs())` with the sign re-applied. -/
theorem checked_add_tt_eq (a b : Duration) (ha : a.get_neg = true)
    (hb : b.get_neg = true) :
    a.checked_add b = (a.abs.checked_add b.abs).map fun res => res.set_neg true := by
  simp only [Duration.checked_add, ha, hb, Duration.abs_get_neg]

/-- Source arm `(false, false)` of `checked_add`. -/
theorem checked_add_nn_eq (a b : Duration) (ha : a.get_neg = false)
    (hb : b.get_neg = false) : a.checked_add b = Duration.add_nn a b := by
  simp only [Duration.checked_add, ha, hb]

/-- Source arm `(false, true)` of `checked_sub`: `self.checked_add(rhs.abs())`. -/
theorem checked_sub_ft_eq (a b : Duration) (ha : a.get_neg = false)
    (hb : b.get_neg = true) : a.checked_sub b = a.checked_add b.abs := by
  simp only [Duration.checked_add, Duration.checked_sub, ha, hb, Duration.abs_get_neg]

/-- Source arm `(true, false)` of `checked_sub`:
`self.abs().checked_add(rhs.abs())` with the sign re-applied. -/
theorem checked_sub_tf_eq (a b : Duration) (ha : a.get_neg = true)
    (hb : b.get_neg = false) :
    a.checked_sub b = (a.abs.checked_add b.abs).map fun res => res.set_neg true := by
  simp only [Duration.checked_add, Duration.checked_sub, ha, hb, Duration.abs_get_neg]

/-- Source arm `(true, true)` of `checked_sub`: `rhs.abs().checked_sub(self.abs())`. -/
theorem checked_sub_tt_eq (a b : Duration) (ha : a.get_neg = true)
    (hb : b.get_neg = true) : a.checked_sub b = b.abs.checked_sub a.abs := by
  simp only [Duration.checked_sub, ha, hb, Duration.abs_get_neg]

/-- Source arm `(false, false)` of `checked_sub`. -/
theorem checked_sub_nn_eq (a b : Duration) (ha : a.get_neg = false)
    (hb : b.get_neg = false) : a.checked_sub b = Duration.sub_nn a b := by
  simp only [Duration.checked_sub, ha, hb]

/-! ## Formatting and the wire codec -/

/-- `{:0w}`-style zero padding. -/
def padNum (n w : Nat) : String :=
  let s := toString n
  String.mk (List.replicate (w - s.length) '0') ++ s

/-- `Duration::format`: `[-]HH{sep}MM{sep}SS[.FFF...]`. -/
def Duration.format (d : Duration) (sep : String) : String :=
  (if d.get_neg then "-" else "") ++
    padNum d.hours 2 ++ sep ++ padNum d.minutes 2 ++ sep ++ padNum d.secs 2 ++
    (if 0 < d.fsp then "." ++ padNum (d.micros / TEN_POW (MICRO_WIDTH - d.fsp)) d.fsp
     else "")

/-- `DurationEncoder::encode_duration` writes the signed whole-nanosecond
value and then the precision tag, each as an `i64`, through the external
integer encoder; that encoder is out of scope (spec §6), so the wire image
is modelled as the two-integer sequence itself. -/
def encode_duration (v : Duration) : Int × Int := (v.to_nanos, (v.fsp : Int))

/-- `Duration::decode`: read the two `i64`s back and reconstruct via
`from_nanos` (the precision is cast `as i8`). -/
def Duration.decode (data : Int × Int) : Except Err Duration :=
  Duration.from_nanos data.1 (i8_of_i64 data.2)

/-- `TryFrom<Duration> for Decimal` hands the zero-separator rendering to
the external decimal parser; the handed-over string is the boundary. -/
def Duration.to_decimal_string (d : Duration) : String := d.format ""

/-- `AsMySQLBool for Duration`. -/
def Duration.as_mysql_bool (d : Duration) : Bool := !d.is_zero

/-! ## Structural lemmas about the packed word -/

/-- A valid instance: every magnitude field within its documented bound,
reserved bit clear, and the word within `u64` range. -/
def Valid (d : Duration) : Prop :=
  d.bits < 2 ^ 64 ∧ d.get_reserved = false ∧ d.hours ≤ 838 ∧ d.minutes ≤ 59 ∧
    d.secs ≤ 59 ∧ d.micros ≤ 999999

instance (d : Duration) : Decidable (Valid d) := by
  unfold Valid; infer_instance

/-- All four magnitude fields are zero. -/
def MagZero (d : Duration) : Prop :=
  d.hours = 0 ∧ d.minutes = 0 ∧ d.secs = 0 ∧ d.micros = 0

instance (d : Duration) : Decidable (MagZero d) := by
  unfold MagZero; infer_instance

/-- Zero magnitude is stored with a clear sign bit (no negative zero). -/
def Normalized (d : Duration) : Prop := MagZero d → d.get_neg = false

instance (d : Duration) : Decidable (Normalized d) := by
  unfold Normalized; infer_instance

/-- The unsigned total of the magnitude fields, in microseconds. -/
def magMicros (d : Duration) : Nat :=
  ((d.hours * 60 + d.minutes) * 60 + d.secs) * 1000000 + d.micros

/-- The signed total of a duration, in microseconds. -/
def signedMicros (d : Duration) : Int :=
  cond d.get_neg (-(magMicros d : Int)) (magMicros d : Int)

theorem new_bits (neg : Bool) (h m s mi f : Nat) :
    (Duration.new neg h m s mi f).bits =
      (cond neg (2 ^ 63) 0) + h % 2 ^ 14 * 2 ^ 48 + m % 2 ^ 8 * 2 ^ 40 +
        s % 2 ^ 8 * 2 ^ 32 + mi % 2 ^ 24 * 2 ^ 8 + f % 2 ^ 8 := by
  cases neg <;>
    simp only [Duration.new, Duration.set_neg, Duration.set_hours, Duration.set_minutes,
      Duration.set_secs, Duration.set_micros, Duration.set_fsp, setBits, getBits,
      Bool.cond_true, Bool.cond_false] <;>
    omega

theorem new_get_neg (neg : Bool) (h m s mi f : Nat) :
    (Duration.new neg h m s mi f).get_neg = neg := by
  have hb := new_bits neg h m s mi f
  cases neg
  · simp only [Duration.get_neg, getBits, hb, Bool.cond_false]
    rw [beq_eq_false_iff_ne]
    omega
  · simp only [Duration.get_neg, getBits, hb, Bool.cond_true]
    rw [beq_iff_eq]
    omega

theorem new_get_reserved (neg : Bool) (h m s mi f : Nat) :
    (Duration.new neg h m s mi f).get_reserved = false := by
  have hb := new_bits neg h m s mi f
  cases neg <;>
    simp only [Duration.get_reserved, getBits, hb, Bool.cond_true, Bool.cond_false] <;>
    rw [beq_eq_false_iff_ne] <;> omega

theorem new_hours (neg : Bool) (h m s mi f : Nat) :
    (Duration.new neg h m s mi f).hours = h % 2 ^ 14 := by
  have hb := new_bits neg h m s mi f
  cases neg <;> simp only [Duration.hours, getBits, hb, Bool.cond_true, Bool.cond_false] <;> omega

theorem new_minutes (neg : Bool) (h m s mi f : Nat) :
    (Duration.new neg h m s mi f).minutes = m % 2 ^ 8 := by
  have hb := new_bits neg h m s mi f
  cases neg <;> simp only [Duration.minutes, getBits, hb, Bool.cond_true, Bool.cond_false] <;> omega

theorem new_secs (neg : Bool) (h m s mi f : Nat) :
    (Duration.new neg h m s mi f).secs = s % 2 ^ 8 := by
  have hb := new_bits neg h m s mi f
  cases neg <;> simp only [Duration.secs, getBits, hb, Bool.cond_true, Bool.cond_false] <;> omega

theorem new_micros (neg : Bool) (h m s mi f : Nat) :
    (Duration.new neg h m s mi f).micros = mi % 2 ^ 24 := by
  have hb := new_bits neg h m s mi f
  cases neg <;> simp only [Duration.micros, getBits, hb, Bool.cond_true, Bool.cond_false] <;> omega

theorem new_fsp (neg : Bool) (h m s mi f : Nat) :
    (Duration.new neg h m s mi f).fsp = f % 2 ^ 8 := by
  have hb := new_bits neg h m s mi f
  cases neg <;> simp only [Duration.fsp, getBits, hb, Bool.cond_true, Bool.cond_false] <;> omega

theorem new_bits_lt (neg : Bool) (h m s mi f : Nat) :
    (Duration.new neg h m s mi f).bits < 2 ^ 64 := by
  have hb := new_bits neg h m s mi f
  cases neg <;> simp only [hb, Bool.cond_true, Bool.cond_false] <;> omega

/-- A `new` whose fields are in range yields a valid duration. -/
theorem new_valid (neg : Bool) (h m s mi f : Nat) (hh : h ≤ 838) (hm : m ≤ 59)
    (hs : s ≤ 59) (hmi : mi ≤ 999999) :
    Valid (Duration.new neg h m s mi f) := by
  refine ⟨new_bits_lt neg h m s mi f, new_get_reserved neg h m s mi f, ?_, ?_, ?_, ?_⟩ <;>
    simp only [new_hours, new_minutes, new_secs, new_micros] <;> omega

/-- Boolean getters take values expressible through the bit at their
position; used to rebuild the word from its fields. -/
theorem get_neg_eq (d : Duration) : d.get_neg = (d.bits / 2 ^ 63 % 2 == 1) := rfl

theorem bits_decomp (d : Duration) (hlt : d.bits < 2 ^ 64) :
    d.bits = (cond d.get_neg (2 ^ 63) 0) + (cond d.get_reserved (2 ^ 62) 0) +
      d.hours * 2 ^ 48 + d.minutes * 2 ^ 40 + d.secs * 2 ^ 32 + d.micros * 2 ^ 8 +
      d.fsp := by
  have h63 : d.bits / 2 ^ 63 % 2 = 0 ∨ d.bits / 2 ^ 63 % 2 = 1 := by omega
  have h62 : d.bits / 2 ^ 62 % 2 = 0 ∨ d.bits / 2 ^ 62 % 2 = 1 := by omega
  rcases h63 with h63 | h63 <;> rcases h62 with h62 | h62 <;>
    simp only [Duration.get_neg, Duration.get_reserved, Duration.hours, Duration.minutes,
      Duration.secs, Duration.micros, Duration.fsp, getBits, show (2 : Nat) ^ 1 = 2 from rfl,
      h63, h62, show ((0 : Nat) == 1) = false from rfl, show ((1 : Nat) == 1) = true from rfl,
      Bool.cond_true, Bool.cond_false] <;>
    omega

theorem set_fsp_bits (d : Duration) (v : Nat) :
    (d.set_fsp v).bits = d.bits - d.bits % 2 ^ 8 + v % 2 ^ 8 := by
  simp only [Duration.set_fsp, setBits, getBits]
  omega

theorem set_fsp_get_neg (d : Duration) (v : Nat) : (d.set_fsp v).get_neg = d.get_neg := by
  have h := set_fsp_bits d v
  simp only [Duration.get_neg, getBits, h]
  congr 1
  omega

theorem set_fsp_get_reserved (d : Duration) (v : Nat) :
    (d.set_fsp v).get_reserved = d.get_reserved := by
  have h := set_fsp_bits d v
  simp only [Duration.get_reserved, getBits, h]
  congr 1
  omega

theorem set_fsp_hours (d : Duration) (v : Nat) : (d.set_fsp v).hours = d.hours := by
  have h := set_fsp_bits d v
  simp only [Duration.hours, getBits, h]
  omega

theorem set_fsp_minutes (d : Duration) (v : Nat) : (d.set_fsp v).minutes = d.minutes := by
  have h := set_fsp_bits d v
  simp only [Duration.minutes, getBits, h]
  omega

theorem set_fsp_secs (d : Duration) (v : Nat) : (d.set_fsp v).secs = d.secs := by
  have h := set_fsp_bits d v
  simp only [Duration.secs, getBits, h]
  omega

theorem set_fsp_micros (d : Duration) (v : Nat) : (d.set_fsp v).micros = d.micros := by
  have h := set_fsp_bits d v
  simp only [Duration.micros, getBits, h]
  omega

theorem set_fsp_fsp (d : Duration) (v : Nat) : (d.set_fsp v).fsp = v % 2 ^ 8 := by
  have h := set_fsp_bits d v
  simp only [Duration.fsp, getBits, h]
  omega

theorem abs_bits (d : Duration) : d.abs.bits = d.bits - d.bits / 2 ^ 63 % 2 * 2 ^ 63 := by
  simp only [Duration.abs, Duration.set_neg, setBits, getBits, Bool.cond_false]
  omega

theorem abs_hours (d : Duration) : d.abs.hours = d.hours := by
  have h := abs_bits d
  simp only [Duration.hours, getBits, h]
  omega

theorem abs_minutes (d : Duration) : d.abs.minutes = d.minutes := by
  have h := abs_bits d
  simp only [Duration.minutes, getBits, h]
  omega

theorem abs_secs (d : Duration) : d.abs.secs = d.secs := by
  have h := abs_bits d
  simp only [Duration.secs, getBits, h]
  omega

theorem abs_micros (d : Duration) : d.abs.micros = d.micros := by
  have h := abs_bits d
  simp only [Duration.micros, getBits, h]
  omega

theorem abs_fsp (d : Duration) : d.abs.fsp = d.fsp := by
  have h := abs_bits d
  simp only [Duration.fsp, getBits, h]
  omega

theorem abs_get_reserved (d : Duration) : d.abs.get_reserved = d.get_reserved := by
  have h := abs_bits d
  simp only [Duration.get_reserved, getBits, h]
  congr 1
  omega

theorem abs_bits_lt (d : Duration) (hlt : d.bits < 2 ^ 64) : d.abs.bits < 2 ^ 64 := by
  have h := abs_bits d
  omega

theorem abs_valid (d : Duration) (hv : Valid d) : Valid d.abs := by
  obtain ⟨h1, h2, h3, h4, h5, h6⟩ := hv
  exact ⟨abs_bits_lt d h1, by rw [abs_get_reserved]; exact h2, by rw [abs_hours]; exact h3,
    by rw [abs_minutes]; exact h4, by rw [abs_secs]; exact h5, by rw [abs_micros]; exact h6⟩

theorem abs_magMicros (d : Duration) : magMicros d.abs = magMicros d := by
  simp only [magMicros, abs_hours, abs_minutes, abs_secs, abs_micros]

theorem set_neg_true_bits (d : Duration) :
    (d.set_neg true).bits = d.bits - d.bits / 2 ^ 63 % 2 * 2 ^ 63 + 2 ^ 63 := by
  simp only [Duration.set_neg, setBits, getBits, Bool.cond_true]
  omega

/-! ## Behaviour of the shared rounding routine -/

set_option maxHeartbeats 1000000 in
/-- On the stored-field domain, `round` is exactly round-half-up of the
total microsecond count at granularity `10 ^ (6 - fsp)`, decomposed back
into fields, with the hour bound as the only failure. -/
theorem round_eq (h m s mi f : Nat) (hf : f ≤ 6) (hm : m ≤ 59) (hs : s ≤ 59)
    (hmi : mi ≤ 999999) :
    round h m s mi f =
      (let g := TEN_POW (6 - f)
       let T := (((h * 60 + m) * 60 + s) * 1000000 + mi + g / 2) / g * g
       if T / 3600000000 ≤ 838 then
         .ok (T / 3600000000, T / 60000000 % 60, T / 1000000 % 60, T % 1000000)
       else .error (.invalidHour (T / 3600000000))) := by
  interval_cases f <;>
    (simp only [round, check_hour, TEN_POW, MICRO_WIDTH, MAX_HOURS]
     norm_num
     split_ifs <;>
       simp_all only [Except.ok.injEq, Except.error.injEq, Err.invalidHour.injEq,
         Prod.mk.injEq] <;>
       omega)

set_option maxHeartbeats 1000000 in
/-- Field bounds preserved/established by `round`, on the wider domain that
`Duration::parse` can feed it (minute/second up to 99 from the packed-block
reinterpretation, fraction up to 7 digits). -/
theorem round_bounds (h m s mi f : Nat) (hf : f ≤ 6) (hm : m ≤ 99) (hs : s ≤ 99)
    (hmi : mi ≤ 9999999) (h' m' s' mi' : Nat)
    (hok : round h m s mi f = .ok (h', m', s', mi')) :
    h' ≤ 838 ∧ m' ≤ 99 ∧ s' ≤ 99 ∧ mi' ≤ 999999 ∧
      (m ≤ 59 → s ≤ 59 → m' ≤ 59 ∧ s' ≤ 59) := by
  interval_cases f <;>
    (simp only [round, check_hour, TEN_POW, MICRO_WIDTH, MAX_HOURS] at hok
     norm_num at hok
     split_ifs at hok <;> simp_all <;> omega)

set_option maxHeartbeats 1000000 in
/-- `round` is the identity (apart from the hour check) on values already
expressed at the requested precision. -/
theorem round_exact (h m s mi f : Nat) (hf : f ≤ 6) (hh : h ≤ 838) (hm : m ≤ 59)
    (hs : s ≤ 59) (hmi : mi ≤ 999999) (hdvd : TEN_POW (6 - f) ∣ mi) :
    round h m s mi f = .ok (h, m, s, mi) := by
  obtain ⟨c, hc⟩ := hdvd
  interval_cases f <;>
    (simp only [TEN_POW] at hc
     norm_num at hc
     simp only [round, check_hour, TEN_POW, MICRO_WIDTH, MAX_HOURS]
     norm_num
     split_ifs <;> simp_all <;> omega)

end MysqlTime

namespace MysqlTime

theorem digit_toNat_bounds (c : Char) (h : c.isDigit = true) :
    48 ≤ c.toNat ∧ c.toNat ≤ 57 := by
  simp only [Char.isDigit, Bool.and_eq_true, decide_eq_true_eq, ge_iff_le] at h
  obtain ⟨h1, h2⟩ := h
  exact ⟨h1, h2⟩

theorem buf_to_int_aux (buf : List Char) (hd : ∀ c ∈ buf, c.isDigit) (acc : Nat) :
    buf.foldl (fun acc c => acc * 10 + (c.toNat - '0'.toNat)) acc <
      (acc + 1) * 10 ^ buf.length := by
  induction buf generalizing acc with
  | nil => simpa using Nat.lt_succ_self acc
  | cons c rest ih =>
    have hc := digit_toNat_bounds c (hd c (List.mem_cons_self c rest))
    have hrest : ∀ x ∈ rest, x.isDigit := fun x hx => hd x (List.mem_cons_of_mem c hx)
    have := ih hrest (acc * 10 + (c.toNat - '0'.toNat))
    simp only [List.foldl_cons, List.length_cons]
    calc List.foldl _ (acc * 10 + (c.toNat - '0'.toNat)) rest
      < (acc * 10 + (c.toNat - '0'.toNat) + 1) * 10 ^ rest.length := this
    _ ≤ (acc + 1) * 10 ^ (rest.length + 1) := by
        have h9 : c.toNat - '0'.toNat ≤ 9 := by
          have h0 : '0'.toNat = 48 := rfl
          omega
        ring_nf
        nlinarith [Nat.pos_pow_of_pos rest.length (by norm_num : 0 < 10)]

/-- `buf_to_int` of an all-digit buffer is below `10 ^ length`. -/
theorem buf_to_int_lt (buf : List Char) (hd : ∀ c ∈ buf, c.isDigit) :
    parser.buf_to_int buf < 10 ^ buf.length := by
  have := buf_to_int_aux buf hd 0
  simpa [parser.buf_to_int] using this

theorem digit1_digits (s rest buf : List Char) (h : parser.digit1 s = some (rest, buf)) :
    (∀ c ∈ buf, c.isDigit) ∧ rest = s.dropWhile Char.isDigit ∧
      buf = s.takeWhile Char.isDigit := by
  dsimp only [parser.digit1] at h
  split_ifs at h with h1
  cases h
  exact ⟨fun c hc => List.mem_takeWhile_imp hc, rfl, rfl⟩

theorem read_int_le (s rest : List Char) (v : Nat)
    (h : parser.read_int s = some (rest, v)) : v ≤ 9999999 := by
  unfold parser.read_int at h
  rcases hd : parser.digit1 s with _ | ⟨r, buf⟩
  · rw [hd] at h
    cases h
  · rw [hd] at h
    dsimp only at h
    split_ifs at h with hlen
    · simp only [Option.some.injEq, Prod.mk.injEq] at h
      obtain ⟨h1, h2⟩ := h
      obtain ⟨hdig, -, -⟩ := digit1_digits s r buf hd
      have := buf_to_int_lt buf hdig
      have hp : (10 : Nat) ^ buf.length ≤ 10 ^ 7 :=
        Nat.pow_le_pow_right (by norm_num) hlen
      omega

theorem read_int_with_fsp_le (s rest : List Char) (f v : Nat) (hf : f ≤ 6)
    (h : parser.read_int_with_fsp s f = some (rest, v)) : v ≤ 9999999 := by
  unfold parser.read_int_with_fsp at h
  rcases hd : parser.digit1 s with _ | ⟨r, buf⟩
  · rw [hd] at h
    cases h
  · rw [hd] at h
    obtain ⟨hdig, -, -⟩ := digit1_digits s r buf hd
    simp only [MICRO_WIDTH, TEN_POW] at h
    split_ifs at h with hge <;> dsimp only at h <;>
      (simp only [Option.some.injEq, Prod.mk.injEq] at h
       obtain ⟨h1, h2⟩ := h
       subst h2)
    · have hlt := buf_to_int_lt buf hdig
      have hlen : buf.length ≤ 6 := le_trans hge hf
      have hstep : parser.buf_to_int buf * 10 ^ (6 - buf.length) <
          10 ^ buf.length * 10 ^ (6 - buf.length) :=
        mul_lt_mul_of_pos_right hlt (Nat.pos_pow_of_pos _ (by norm_num))
      rw [← Nat.pow_add] at hstep
      have h6 : buf.length + (6 - buf.length) = 6 := by omega
      rw [h6] at hstep
      omega
    · have hdig2 : ∀ c ∈ buf.take (f + 1), c.isDigit := fun c hc =>
        hdig c (List.mem_of_mem_take hc)
      have hlt := buf_to_int_lt (buf.take (f + 1)) hdig2
      have hlen : (buf.take (f + 1)).length ≤ f + 1 := by
        simp [List.length_take]
      have hlt2 : parser.buf_to_int (buf.take (f + 1)) < 10 ^ (f + 1) :=
        lt_of_lt_of_le hlt (Nat.pow_le_pow_right (by norm_num) hlen)
      have hstep : parser.buf_to_int (buf.take (f + 1)) * 10 ^ (6 - (f + 1)) <
          10 ^ (f + 1) * 10 ^ (6 - (f + 1)) :=
        mul_lt_mul_of_pos_right hlt2 (Nat.pos_pow_of_pos _ (by norm_num))
      rw [← Nat.pow_add] at hstep
      have h7 : f + 1 + (6 - (f + 1)) ≤ 7 := by omega
      have hp : (10 : Nat) ^ (f + 1 + (6 - (f + 1))) ≤ 10 ^ 7 :=
        Nat.pow_le_pow_right (by norm_num) h7
      omega

end MysqlTime

namespace MysqlTime

theorem day_le (s rest : List Char) (v : Nat) (h : parser.day s = (rest, some v)) :
    v ≤ 9999999 := by
  unfold parser.day at h
  rcases hr : parser.read_int s with _ | ⟨s1, w⟩ <;> rw [hr] at h <;> dsimp only at h
  · simp only [Prod.mk.injEq] at h
    exact absurd h.2 (by simp)
  · split_ifs at h <;> simp only [Prod.mk.injEq] at h <;>
      first
      | (obtain ⟨-, h2⟩ := h
         cases h2
         exact read_int_le s s1 v hr)
      | exact absurd h.2 (by simp)

theorem hourOpt_le (s rest : List Char) (v : Nat)
    (h : parser.hourOpt s = (rest, some v)) : v ≤ 838 := by
  unfold parser.hourOpt at h
  rcases hr : parser.read_int s with _ | ⟨s1, w⟩ <;> rw [hr] at h <;> dsimp only at h
  · simp only [Prod.mk.injEq] at h
    exact absurd h.2 (by simp)
  · split_ifs at h with hle <;> simp only [Prod.mk.injEq] at h
    · obtain ⟨-, h2⟩ := h
      cases h2
      simpa [MAX_HOURS] using hle
    · exact absurd h.2 (by simp)

theorem minuteCond_le (s rest : List Char) (b : Bool) (v : Nat)
    (h : parser.minuteCond s b = some (rest, some v)) : v ≤ 59 := by
  unfold parser.minuteCond at h
  split_ifs at h with hb
  · rcases hr : parser.read_int s with _ | ⟨s1, w⟩ <;> rw [hr] at h <;> dsimp only at h
    · cases h
    · split_ifs at h with hle <;>
        simp only [Option.some.injEq, Prod.mk.injEq] at h
      obtain ⟨-, h2⟩ := h
      cases h2
      simpa [MAX_MINUTES] using hle
  · simp only [Option.some.injEq, Prod.mk.injEq] at h
    exact absurd h.2 (by simp)

theorem secondCond_le (s rest : List Char) (b : Bool) (v : Nat)
    (h : parser.secondCond s b = some (rest, some v)) : v ≤ 59 := by
  unfold parser.secondCond at h
  split_ifs at h with hb
  · rcases hr : parser.read_int s with _ | ⟨s1, w⟩ <;> rw [hr] at h <;> dsimp only at h
    · cases h
    · split_ifs at h with hle <;>
        simp only [Option.some.injEq, Prod.mk.injEq] at h
      obtain ⟨-, h2⟩ := h
      cases h2
      simpa [MAX_SECONDS] using hle
  · simp only [Option.some.injEq, Prod.mk.injEq] at h
    exact absurd h.2 (by simp)

theorem fraction_le (s rest : List Char) (f v : Nat) (hf : f ≤ 6)
    (h : parser.fraction s f = (rest, some v)) : v ≤ 9999999 := by
  unfold parser.fraction at h
  dsimp only at h
  rcases hr : parser.read_int_with_fsp (parser.stripDot (parser.dropSpaces s)) f with
    _ | ⟨s2, w⟩ <;> rw [hr] at h <;> dsimp only at h <;> simp only [Prod.mk.injEq] at h
  · exact absurd h.2 (by simp)
  · obtain ⟨-, h2⟩ := h
    cases h2
    exact read_int_with_fsp_le _ s2 f v hf hr

end MysqlTime

namespace MysqlTime

/-- Bounds on every field the grammar can deliver. -/
theorem parse_bounds (input : List Char) (f : Nat) (hf : f ≤ 6) (neg : Bool)
    (F : parser.Fields) (hp : parser.parse input f = some (neg, F)) :
    (∀ v, F.day = some v → v ≤ 9999999) ∧ (∀ v, F.hour = some v → v ≤ 838) ∧
      (∀ v, F.minute = some v → v ≤ 59) ∧ (∀ v, F.second = some v → v ≤ 59) ∧
      (∀ v, F.fraction = some v → v ≤ 9999999) := by
  unfold parser.parse at hp
  dsimp only at hp
  rcases hn : parser.negSign (parser.dropSpaces input) with _ | ⟨s1, ng⟩ <;>
    rw [hn] at hp <;> dsimp only at hp
  · cases hp
  · rcases hd : parser.day s1 with ⟨s2, dv⟩
    rw [hd] at hp
    dsimp only at hp
    rcases hh : parser.hourOpt s2 with ⟨s3, hv⟩
    rw [hh] at hp
    dsimp only at hp
    rcases hs1 : parser.separator s3 with ⟨s4, b1⟩
    rw [hs1] at hp
    dsimp only at hp
    rcases hm : parser.minuteCond s4 b1 with _ | ⟨s5, mv⟩ <;> rw [hm] at hp <;>
      dsimp only at hp
    · cases hp
    · rcases hs2 : parser.separator s5 with ⟨s6, b2⟩
      rw [hs2] at hp
      dsimp only at hp
      rcases hsec : parser.secondCond s6 b2 with _ | ⟨s7, sv⟩ <;> rw [hsec] at hp <;>
        dsimp only at hp
      · cases hp
      · rcases hfr : parser.fraction s7 f with ⟨s8, fv⟩
        rw [hfr] at hp
        dsimp only at hp
        split_ifs at hp
        simp only [Option.some.injEq, Prod.mk.injEq] at hp
        obtain ⟨-, hF⟩ := hp
        subst hF
        refine ⟨?_, ?_, ?_, ?_, ?_⟩ <;> intro v hv' <;> dsimp only at hv' <;> subst hv'
        · exact day_le s1 s2 v hd
        · exact hourOpt_le s2 s3 v hh
        · exact minuteCond_le s4 s5 b1 v hm
        · exact secondCond_le s6 s7 b2 v hsec
        · exact fraction_le s7 s8 f v hf hfr

end MysqlTime

namespace MysqlTime

/-- `check_fsp` only succeeds with a precision in `0..=6`. -/
theorem check_fsp_le (fsp : Int) (f : Nat) (h : check_fsp fsp = .ok f) : f ≤ 6 := by
  unfold check_fsp at h
  split_ifs at h with hc
  cases h
  omega

/-- Explicit hour: the day combines additively (`hour + 24 * day`),
minute/second/fraction pass through. -/
theorem combineFields_day_hour (d h : Nat) (minute second micros : Option Nat) :
    combineFields (some d) (some h) minute second micros =
      (h + d * 24, minute.getD 0, second.getD 0, micros.getD 0) := rfl

/-- No explicit hour: the captured day is reinterpreted as a packed
`HHHMMSS` block. -/
theorem combineFields_day_block (d : Nat) (minute second micros : Option Nat) :
    combineFields (some d) none minute second micros =
      (d / 10000, d / 100 % 100, d % 100, micros.getD 0) := rfl

theorem combineFields_bounds (day hour minute second micros : Option Nat)
    (hdy : ∀ v, day = some v → v ≤ 9999999) (hm : ∀ v, minute = some v → v ≤ 59)
    (hs : ∀ v, second = some v → v ≤ 59) (hmi : ∀ v, micros = some v → v ≤ 9999999)
    (h0 m0 s0 mi0 : Nat)
    (heq : combineFields day hour minute second micros = (h0, m0, s0, mi0)) :
    m0 ≤ 99 ∧ s0 ≤ 99 ∧ mi0 ≤ 9999999 := by
  have hmi0 : micros.getD 0 ≤ 9999999 := by
    rcases micros with _ | mv
    · simp
    · simpa using hmi mv rfl
  have hm0 : minute.getD 0 ≤ 59 := by
    rcases minute with _ | mv
    · simp
    · simpa using hm mv rfl
  have hs0 : second.getD 0 ≤ 59 := by
    rcases second with _ | sv
    · simp
    · simpa using hs sv rfl
  rcases day with _ | dv <;> rcases hour with _ | hv <;>
    simp only [combineFields, Option.getD_none, Option.getD_some] at heq <;>
    (obtain ⟨e1, e2, e3, e4⟩ : _ ∧ _ ∧ _ ∧ _ := by
      simpa [Prod.mk.injEq] using heq) <;>
    subst e1 <;> subst e2 <;> subst e3 <;> subst e4 <;>
    refine ⟨?_, ?_, ?_⟩ <;> omega

end MysqlTime

namespace MysqlTime

/-- Everything `Duration::parse` can return: hour/fraction within bounds and
reserved clear, but minutes/seconds only bounded by 99 (packed-block path). -/
theorem parse_ok_fields (input : List Char) (fspI : Int) (d : Duration)
    (h : Duration.parse input fspI = .ok d) :
    d.hours ≤ 838 ∧ d.minutes ≤ 99 ∧ d.secs ≤ 99 ∧ d.micros ≤ 999999 ∧
      d.get_reserved = false ∧ d.bits < 2 ^ 64 ∧ d.fsp ≤ 6 := by
  unfold Duration.parse at h
  split_ifs at h with hemp
  rcases hcf : check_fsp fspI with _ | fN <;> rw [hcf] at h <;> dsimp only at h
  · cases h
  · have hfN : fN ≤ 6 := check_fsp_le fspI fN hcf
    rcases hpp : parser.parse input fN with _ | ⟨ng, F⟩ <;> rw [hpp] at h <;>
      dsimp only at h
    · cases h
    · obtain ⟨hbd, hbh, hbm, hbs, hbf⟩ := parse_bounds input fN hfN ng F hpp
      rcases hcomb : combineFields F.day F.hour F.minute F.second F.fraction with
        ⟨h0, m0, s0, mi0⟩
      rw [hcomb] at h
      dsimp only at h
      obtain ⟨hm0, hs0, hmi0⟩ :=
        combineFields_bounds F.day F.hour F.minute F.second F.fraction hbd hbm hbs hbf
          h0 m0 s0 mi0 hcomb
      rcases hr : round h0 m0 s0 mi0 fN with _ | ⟨h', m', s', mi'⟩ <;>
        rw [hr] at h <;> dsimp only at h
      · cases h
      · obtain ⟨hh', hm', hs', hmi', -⟩ :=
          round_bounds h0 m0 s0 mi0 fN hfN hm0 hs0 hmi0 h' m' s' mi' hr
        cases h
        refine ⟨?_, ?_, ?_, ?_, new_get_reserved _ _ _ _ _ _, new_bits_lt _ _ _ _ _ _, ?_⟩ <;>
          simp only [new_hours, new_minutes, new_secs, new_micros, new_fsp] <;> omega

end MysqlTime

namespace MysqlTime

theorem set_reserved_false_bits (d : Duration) :
    (d.set_reserved false).bits = d.bits - d.bits / 2 ^ 62 % 2 * 2 ^ 62 := by
  simp only [Duration.set_reserved, setBits, getBits, Bool.cond_false]
  omega

theorem set_reserved_false_get_reserved (d : Duration) :
    (d.set_reserved false).get_reserved = false := by
  have h := set_reserved_false_bits d
  simp only [Duration.get_reserved, getBits, h]
  rw [beq_eq_false_iff_ne]
  omega

theorem set_reserved_false_get_neg (d : Duration) :
    (d.set_reserved false).get_neg = d.get_neg := by
  have h := set_reserved_false_bits d
  simp only [Duration.get_neg, getBits, h]
  congr 1
  omega

theorem set_reserved_false_hours (d : Duration) :
    (d.set_reserved false).hours = d.hours := by
  have h := set_reserved_false_bits d
  simp only [Duration.hours, getBits, h]
  omega

theorem set_reserved_false_minutes (d : Duration) :
    (d.set_reserved false).minutes = d.minutes := by
  have h := set_reserved_false_bits d
  simp only [Duration.minutes, getBits, h]
  omega

theorem set_reserved_false_secs (d : Duration) :
    (d.set_reserved false).secs = d.secs := by
  have h := set_reserved_false_bits d
  simp only [Duration.secs, getBits, h]
  omega

theorem set_reserved_false_micros (d : Duration) :
    (d.set_reserved false).micros = d.micros := by
  have h := set_reserved_false_bits d
  simp only [Duration.micros, getBits, h]
  omega

theorem set_reserved_false_fsp (d : Duration) :
    (d.set_reserved false).fsp = d.fsp := by
  have h := set_reserved_false_bits d
  simp only [Duration.fsp, getBits, h]
  omega

/-- Raw-bits reconstruction only returns field-wise valid values. -/
theorem from_bits_valid (v : Nat) (d : Duration) (hv : v < 2 ^ 64)
    (h : Duration.from_bits v = .ok d) : Valid d := by
  unfold Duration.from_bits at h
  dsimp only at h
  simp only [check_micros, check_second, check_minute, check_hour, MAX_MICROS,
    MAX_SECONDS, MAX_MINUTES, MAX_HOURS] at h
  split_ifs at h with h1 h2 h3 h4 <;> try cases h
  refine ⟨?_, set_reserved_false_get_reserved _, ?_, ?_, ?_, ?_⟩
  · have := set_reserved_false_bits (⟨v⟩ : Duration)
    simp only [this]
    omega
  · rw [set_reserved_false_hours]; omega
  · rw [set_reserved_false_minutes]; omega
  · rw [set_reserved_false_secs]; omega
  · rw [set_reserved_false_micros]; omega

theorem neg_tmod' (a b : Int) : (-a).tmod b = -(a.tmod b) := by
  rw [Int.tmod_def, Int.tmod_def, Int.neg_tdiv]
  ring

theorem natAbs_tmod (a : Int) (k : Nat) : (a.tmod k).natAbs = a.natAbs % k := by
  have base : ∀ n : Nat, (((n : Int)).tmod k).natAbs = n % k := by
    intro n
    rw [Int.tmod_eq_emod (Int.ofNat_nonneg _) (Int.ofNat_nonneg _), ← Int.ofNat_emod]
    exact Int.natAbs_ofNat _
  rcases Int.natAbs_eq a with he | he
  · calc (a.tmod k).natAbs = (((a.natAbs : Int)).tmod k).natAbs := by rw [← he]
    _ = a.natAbs % k := base _
  · calc (a.tmod k).natAbs = ((-(a.natAbs : Int)).tmod k).natAbs := by rw [← he]
    _ = (((a.natAbs : Int)).tmod k).natAbs := by rw [neg_tmod', Int.natAbs_neg]
    _ = a.natAbs % k := base _

theorem natAbs_tdiv' (a : Int) (k : Nat) : (a.tdiv k).natAbs = a.natAbs / k := by
  rw [Int.natAbs_tdiv]
  rfl

/-- `from_micros` only returns field-wise valid values. -/
theorem from_micros_valid (micros fsp : Int) (d : Duration)
    (h : Duration.from_micros micros fsp = .ok d) : Valid d := by
  unfold Duration.from_micros at h
  rcases hcf : check_fsp fsp with _ | fN <;> rw [hcf] at h <;> dsimp only at h
  · cases h
  · have hfN : fN ≤ 6 := check_fsp_le fsp fN hcf
    set S := (micros.tdiv MICROS_PER_SEC).natAbs with hS
    have hmi : (micros.tmod MICROS_PER_SEC).natAbs ≤ 999999 := by
      have := natAbs_tmod micros 1000000
      simp only [MICROS_PER_SEC] at *
      rw [show ((1000000 : Int) : Int) = ((1000000 : Nat) : Int) by norm_num] at *
      omega
    rcases hr : round (S / 3600 % 4294967296) (S % 3600 / 60) (S % 60)
        (micros.tmod MICROS_PER_SEC).natAbs fN with _ | ⟨h', m', s', mi'⟩ <;>
      rw [hr] at h <;> dsimp only at h
    · cases h
    · obtain ⟨hh', hm', hs', hmi', hfine⟩ := round_bounds _ _ _ _ fN hfN
        (by omega) (by omega) (by omega) h' m' s' mi' hr
      obtain ⟨hm2, hs2⟩ := hfine (by omega) (by omega)
      cases h
      exact new_valid _ _ _ _ _ _ (by omega) (by omega) (by omega) (by omega)

/-- `from_nanos` only returns field-wise valid values. -/
theorem from_nanos_valid (nanos fsp : Int) (d : Duration)
    (h : Duration.from_nanos nanos fsp = .ok d) : Valid d :=
  from_micros_valid _ fsp d h

/-- `from_millis` only returns field-wise valid values. -/
theorem from_millis_valid (millis fsp : Int) (d : Duration)
    (h : Duration.from_millis millis fsp = .ok d) : Valid d := by
  unfold Duration.from_millis at h
  split_ifs at h
  exact from_micros_valid _ fsp d h

theorem set_fsp_valid (d : Duration) (v : Nat) (hv : Valid d) : Valid (d.set_fsp v) := by
  obtain ⟨h1, h2, h3, h4, h5, h6⟩ := hv
  refine ⟨?_, ?_, ?_, ?_, ?_, ?_⟩
  · have := set_fsp_bits d v
    omega
  · rw [set_fsp_get_reserved]; exact h2
  · rw [set_fsp_hours]; exact h3
  · rw [set_fsp_minutes]; exact h4
  · rw [set_fsp_secs]; exact h5
  · rw [set_fsp_micros]; exact h6

/-- `round_frac` of a valid value is valid. -/
theorem round_frac_valid (d : Duration) (fsp : Int) (d' : Duration) (hv : Valid d)
    (h : d.round_frac fsp = .ok d') : Valid d' := by
  unfold Duration.round_frac at h
  rcases hcf : check_fsp fsp with _ | fN <;> rw [hcf] at h <;> dsimp only at h
  · cases h
  · have hfN : fN ≤ 6 := check_fsp_le fsp fN hcf
    obtain ⟨h1, h2, h3, h4, h5, h6⟩ := hv
    split_ifs at h with hwiden
    · cases h
      exact set_fsp_valid d fN ⟨h1, h2, h3, h4, h5, h6⟩
    · rcases hr : round d.hours d.minutes d.secs d.micros fN with _ | ⟨h', m', s', mi'⟩ <;>
        rw [hr] at h <;> dsimp only at h
      · cases h
      · obtain ⟨hh', hm', hs', hmi', hfine⟩ := round_bounds _ _ _ _ fN hfN
          (by omega) (by omega) (by omega) h' m' s' mi' hr
        obtain ⟨hm2, hs2⟩ := hfine (by omega) (by omega)
        cases h
        exact new_valid _ _ _ _ _ _ (by omega) (by omega) (by omega) (by omega)

end MysqlTime

namespace MysqlTime

/-- The fsp-zeroed word of a valid non-negative duration is just its
magnitude fields. -/
theorem bits0_eq (d : Duration) (hv : Valid d) (hn : d.get_neg = false) :
    (d.set_fsp 0).bits =
      d.hours * 2 ^ 48 + d.minutes * 2 ^ 40 + d.secs * 2 ^ 32 + d.micros * 2 ^ 8 := by
  have hdec := bits_decomp d hv.1
  rw [hn, hv.2.1] at hdec
  simp only [Bool.cond_false] at hdec
  have hfsp : d.fsp < 2 ^ 8 := by
    simp only [Duration.fsp, getBits]
    omega
  rw [set_fsp_bits]
  omega

/-- Same, with the sign bit kept. -/
theorem bits0_eq_gen (d : Duration) (hv : Valid d) :
    (d.set_fsp 0).bits = (cond d.get_neg (2 ^ 63) 0) +
      (d.hours * 2 ^ 48 + d.minutes * 2 ^ 40 + d.secs * 2 ^ 32 + d.micros * 2 ^ 8) := by
  have hdec := bits_decomp d hv.1
  rw [hv.2.1] at hdec
  simp only [Bool.cond_false] at hdec
  have hfsp : d.fsp < 2 ^ 8 := by
    simp only [Duration.fsp, getBits]
    omega
  rw [set_fsp_bits]
  rcases hg : d.get_neg <;> rw [hg] at hdec <;>
    simp only [Bool.cond_false, Bool.cond_true] <;>
    simp only [Bool.cond_false, Bool.cond_true] at hdec <;> omega

/-- For non-negative operands the `PartialOrd` comparison is the raw
comparison of the fsp-zeroed words. -/
theorem ltDur_iff (a b : Duration) (ha : a.get_neg = false) (hb : b.get_neg = false) :
    ltDur a b = true ↔ (a.set_fsp 0).bits < (b.set_fsp 0).bits := by
  unfold ltDur cmpDur natCmp
  dsimp only
  rw [set_fsp_get_neg, set_fsp_get_neg, ha, hb]
  simp only [Bool.or_self, Bool.false_eq_true, if_false]
  split_ifs with h1 h2
  · simp only [show (Ordering.lt == Ordering.lt) = true from rfl, true_iff]
    exact h1
  · simp only [show (Ordering.eq == Ordering.lt) = false from rfl, Bool.false_eq_true,
      false_iff]
    omega
  · simp only [show (Ordering.gt == Ordering.lt) = false from rfl, Bool.false_eq_true,
      false_iff]
    omega

theorem ltDur_eq_false_iff (a b : Duration) (ha : a.get_neg = false)
    (hb : b.get_neg = false) :
    ltDur a b = false ↔ (b.set_fsp 0).bits ≤ (a.set_fsp 0).bits := by
  rw [← Bool.not_eq_true, not_iff_comm.symm]
  rw [ltDur_iff a b ha hb]
  omega

theorem set_neg_true_get_neg (d : Duration) : (d.set_neg true).get_neg = true := by
  have h := set_neg_true_bits d
  simp only [Duration.get_neg, getBits, h]
  rw [beq_iff_eq]
  omega

theorem set_neg_true_get_reserved (d : Duration) :
    (d.set_neg true).get_reserved = d.get_reserved := by
  have h := set_neg_true_bits d
  simp only [Duration.get_reserved, getBits, h]
  congr 1
  omega

theorem set_neg_true_hours (d : Duration) : (d.set_neg true).hours = d.hours := by
  have h := set_neg_true_bits d
  simp only [Duration.hours, getBits, h]
  omega

theorem set_neg_true_minutes (d : Duration) : (d.set_neg true).minutes = d.minutes := by
  have h := set_neg_true_bits d
  simp only [Duration.minutes, getBits, h]
  omega

theorem set_neg_true_secs (d : Duration) : (d.set_neg true).secs = d.secs := by
  have h := set_neg_true_bits d
  simp only [Duration.secs, getBits, h]
  omega

theorem set_neg_true_micros (d : Duration) : (d.set_neg true).micros = d.micros := by
  have h := set_neg_true_bits d
  simp only [Duration.micros, getBits, h]
  omega

theorem set_neg_true_fsp (d : Duration) : (d.set_neg true).fsp = d.fsp := by
  have h := set_neg_true_bits d
  simp only [Duration.fsp, getBits, h]
  omega

theorem set_neg_true_bits_lt (d : Duration) (hv : d.bits < 2 ^ 64) :
    (d.set_neg true).bits < 2 ^ 64 := by
  have h := set_neg_true_bits d
  omega

theorem set_neg_true_valid (d : Duration) (hv : Valid d) : Valid (d.set_neg true) := by
  obtain ⟨h1, h2, h3, h4, h5, h6⟩ := hv
  exact ⟨set_neg_true_bits_lt d h1, by rw [set_neg_true_get_reserved]; exact h2,
    by rw [set_neg_true_hours]; exact h3, by rw [set_neg_true_minutes]; exact h4,
    by rw [set_neg_true_secs]; exact h5, by rw [set_neg_true_micros]; exact h6⟩

theorem set_neg_true_magMicros (d : Duration) : magMicros (d.set_neg true) = magMicros d := by
  simp only [magMicros, set_neg_true_hours, set_neg_true_minutes, set_neg_true_secs,
    set_neg_true_micros]

theorem zero_valid : Valid Duration.zero := by decide

theorem zero_get_neg : Duration.zero.get_neg = false := by decide

theorem zero_magMicros : magMicros Duration.zero = 0 := by decide

theorem zero_fsp : Duration.zero.fsp = 0 := by decide

/-- Two valid durations with the same sign, magnitude fields and precision
are the same word. -/
theorem eq_of_fields (c d : Duration) (hvc : Valid c) (hvd : Valid d)
    (hneg : c.get_neg = d.get_neg) (hmag : magMicros c = magMicros d)
    (hfsp : c.fsp = d.fsp) : c = d := by
  have hc := bits_decomp c hvc.1
  have hd := bits_decomp d hvd.1
  rw [hvc.2.1] at hc
  rw [hvd.2.1] at hd
  simp only [Bool.cond_false] at hc hd
  obtain ⟨-, -, hch, hcm, hcs, hcmi⟩ := hvc
  obtain ⟨-, -, hdh, hdm, hds, hdmi⟩ := hvd
  simp only [magMicros] at hmag
  have hfields : c.hours = d.hours ∧ c.minutes = d.minutes ∧ c.secs = d.secs ∧
      c.micros = d.micros := by omega
  have hbits : c.bits = d.bits := by
    rcases hb : d.get_neg <;> rw [hb] at hneg <;> rw [hneg] at hc <;> rw [hb] at hd <;>
      simp only [Bool.cond_false, Bool.cond_true] at hc hd <;> omega
  cases c
  cases d
  simpa using hbits

end MysqlTime

namespace MysqlTime

/-- The maximum representable magnitude: `838:59:59.999999` in microseconds. -/
def maxMagMicros : Nat := 3020399999999

theorem Duration.ext' (c d : Duration) (h : c.bits = d.bits) : c = d := by
  cases c
  cases d
  simpa using h

theorem fsp_lt (d : Duration) : d.fsp < 2 ^ 8 := by
  simp only [Duration.fsp, getBits]
  omega

set_option maxHeartbeats 1000000 in
/-- A successful non-negative addition: in-domain total, exact sum. -/
theorem add_nn_some (a b c : Duration) (hva : Valid a) (hvb : Valid b)
    (h : a.add_nn b = some c) :
    Valid c ∧ c.get_neg = false ∧ magMicros c = magMicros a + magMicros b ∧
      c.fsp = max a.fsp b.fsp ∧ magMicros a + magMicros b ≤ maxMagMicros := by
  unfold Duration.add_nn at h
  obtain ⟨-, -, hah, ham, has, hamu⟩ := hva
  obtain ⟨-, -, hbh, hbm, hbs, hbmu⟩ := hvb
  have hfa := fsp_lt a
  have hfb := fsp_lt b
  simp only [MAX_HOURS] at h
  split_ifs at h <;> simp only [Option.some.injEq] at h <;> subst h <;>
    refine ⟨new_valid _ _ _ _ _ _ (by omega) (by omega) (by omega) (by omega),
      new_get_neg _ _ _ _ _ _, ?_, ?_, ?_⟩ <;>
    simp only [magMicros, maxMagMicros, new_hours, new_minutes, new_secs, new_micros,
      new_fsp] <;>
    omega

set_option maxHeartbeats 1000000 in
/-- Non-negative addition overflows exactly past the domain maximum. -/
theorem add_nn_none (a b : Duration) (hva : Valid a) (hvb : Valid b)
    (h : maxMagMicros < magMicros a + magMicros b) : a.add_nn b = none := by
  unfold Duration.add_nn
  obtain ⟨-, -, hah, ham, has, hamu⟩ := hva
  obtain ⟨-, -, hbh, hbm, hbs, hbmu⟩ := hvb
  simp only [magMicros, maxMagMicros] at h
  simp only [MAX_HOURS]
  split_ifs with c1 c2 c3 c4 <;> first | rfl | (exfalso; omega)

set_option maxHeartbeats 1000000 in
/-- Non-negative addition succeeds on every in-domain total. -/
theorem add_nn_isSome (a b : Duration) (hva : Valid a) (hvb : Valid b)
    (hle : magMicros a + magMicros b ≤ maxMagMicros) : ∃ c, a.add_nn b = some c := by
  unfold Duration.add_nn
  obtain ⟨-, -, hah, ham, has, hamu⟩ := hva
  obtain ⟨-, -, hbh, hbm, hbs, hbmu⟩ := hvb
  simp only [magMicros, maxMagMicros] at hle
  simp only [MAX_HOURS]
  split_ifs <;> first | exact ⟨_, rfl⟩ | (exfalso; omega)

/-- For valid non-negative operands, the `PartialOrd` comparison agrees
with comparing magnitudes. -/
theorem ltDur_mag (a b : Duration) (ha : a.get_neg = false) (hb : b.get_neg = false)
    (hva : Valid a) (hvb : Valid b) :
    ltDur a b = decide (magMicros a < magMicros b) := by
  have h1 := ltDur_iff a b ha hb
  rw [bits0_eq a hva ha, bits0_eq b hvb hb] at h1
  obtain ⟨-, -, hah, ham, has, hamu⟩ := hva
  obtain ⟨-, -, hbh, hbm, hbs, hbmu⟩ := hvb
  by_cases hm : magMicros a < magMicros b
  · rw [h1.mpr ?_, decide_eq_true hm]
    simp only [magMicros] at hm
    omega
  · have hb1 : ltDur a b = false := by
      rcases hx : ltDur a b
      · rfl
      · exfalso
        have := h1.mp hx
        simp only [magMicros] at hm
        omega
    rw [hb1, decide_eq_false hm]

end MysqlTime

namespace MysqlTime

set_option maxHeartbeats 3000000 in
/-- The non-negative subtraction arm: always succeeds, picks the sign by the
comparison, and computes the exact magnitude difference via borrows. -/
theorem sub_nn_spec (a b : Duration) (ha : a.get_neg = false) (hb : b.get_neg = false)
    (hva : Valid a) (hvb : Valid b) :
    ∃ c, a.sub_nn b = some c ∧ Valid c ∧ c.fsp = max a.fsp b.fsp ∧
      (magMicros b ≤ magMicros a → c.get_neg = false ∧
        magMicros c = magMicros a - magMicros b) ∧
      (magMicros a < magMicros b → c.get_neg = true ∧
        magMicros c = magMicros b - magMicros a) := by
  unfold Duration.sub_nn
  rw [ltDur_mag a b ha hb hva hvb]
  have hfa := fsp_lt a
  have hfb := fsp_lt b
  obtain ⟨-, -, hah, ham, has, hamu⟩ := hva
  obtain ⟨-, -, hbh, hbm, hbs, hbmu⟩ := hvb
  by_cases hm : magMicros a < magMicros b <;>
    [rw [decide_eq_true hm]; rw [decide_eq_false hm]] <;>
    simp only [magMicros] at hm <;>
    simp only [Bool.cond_true, Bool.cond_false] <;>
    (try dsimp only) <;>
    simp only [u32_of_i32] <;>
    split_ifs with c1 c2 c3 <;>
    refine ⟨_, rfl,
      new_valid _ _ _ _ _ _ (by omega) (by omega) (by omega) (by omega), ?_, ?_, ?_⟩ <;>
    first
    | (rw [new_fsp]; omega)
    | (intro hcmp
       simp only [magMicros] at hcmp ⊢
       first
       | (exfalso; omega)
       | (refine ⟨new_get_neg _ _ _ _ _ _, ?_⟩
          simp only [magMicros, new_hours, new_minutes, new_secs, new_micros]
          omega))

end MysqlTime

namespace MysqlTime

theorem magMicros_le_max (d : Duration) (hv : Valid d) : magMicros d ≤ maxMagMicros := by
  obtain ⟨-, -, h3, h4, h5, h6⟩ := hv
  simp only [magMicros, maxMagMicros]
  omega

theorem magZero_iff (d : Duration) : MagZero d ↔ magMicros d = 0 := by
  unfold MagZero magMicros
  omega

theorem normalized_neg_pos (d : Duration) (hn : Normalized d) (hg : d.get_neg = true) :
    0 < magMicros d := by
  rcases Nat.eq_zero_or_pos (magMicros d) with h0 | h0
  · have := hn ((magZero_iff d).mpr h0)
    rw [this] at hg
    cases hg
  · exact h0

theorem signedMicros_of_neg (d : Duration) (h : d.get_neg = true) :
    signedMicros d = -(magMicros d : Int) := by
  simp [signedMicros, h]

theorem signedMicros_of_pos (d : Duration) (h : d.get_neg = false) :
    signedMicros d = (magMicros d : Int) := by
  simp [signedMicros, h]

theorem neg_false_normalized (d : Duration) (h : d.get_neg = false) : Normalized d :=
  fun _ => h

set_option maxHeartbeats 1000000 in
/-- Full characterization of `checked_add` over valid operands: `None`
exactly when the signed total leaves the domain, otherwise the exact signed
total with the max of the precisions. -/
theorem checked_add_spec (a b : Duration) (hva : Valid a) (hvb : Valid b) :
    (maxMagMicros < (signedMicros a + signedMicros b).natAbs →
      a.checked_add b = none) ∧
    ((signedMicros a + signedMicros b).natAbs ≤ maxMagMicros →
      ∃ c, a.checked_add b = some c ∧ Valid c ∧
        signedMicros c = signedMicros a + signedMicros b ∧ c.fsp = max a.fsp b.fsp ∧
        (Normalized a → Normalized b → Normalized c)) := by
  rcases hga : a.get_neg with _ | _ <;> rcases hgb : b.get_neg with _ | _
  · -- (false, false)
    rw [checked_add_nn_eq a b hga hgb]
    rw [signedMicros_of_pos a hga, signedMicros_of_pos b hgb]
    constructor
    · intro hover
      exact add_nn_none a b hva hvb (by omega)
    · intro hle
      obtain ⟨c, hc⟩ := add_nn_isSome a b hva hvb (by omega)
      obtain ⟨hv, hn, hmag, hfsp, -⟩ := add_nn_some a b c hva hvb hc
      refine ⟨c, hc, hv, ?_, hfsp, fun _ _ => neg_false_normalized c hn⟩
      rw [signedMicros_of_pos c hn, hmag]
      push_cast
      ring
  · -- (false, true): checked_sub a b.abs
    rw [checked_add_ft_eq a b hga hgb,
      checked_sub_nn_eq a b.abs hga (Duration.abs_get_neg b)]
    obtain ⟨c, hc, hv, hfsp, himp1, himp2⟩ :=
      sub_nn_spec a b.abs hga (Duration.abs_get_neg b) hva (abs_valid b hvb)
    rw [abs_magMicros] at himp1 himp2
    rw [signedMicros_of_pos a hga, signedMicros_of_neg b hgb]
    have hma := magMicros_le_max a hva
    have hmb := magMicros_le_max b hvb
    constructor
    · intro hover
      exfalso
      omega
    · intro hle
      refine ⟨c, hc, hv, ?_, by rw [hfsp, abs_fsp], fun _ _ => ?_⟩
      · rcases le_or_lt (magMicros b) (magMicros a) with hcase | hcase
        · obtain ⟨hn, hmag⟩ := himp1 hcase
          rw [signedMicros_of_pos c hn, hmag]
          omega
        · obtain ⟨hn, hmag⟩ := himp2 hcase
          rw [signedMicros_of_neg c hn, hmag]
          omega
      · intro hz
        rcases le_or_lt (magMicros b) (magMicros a) with hcase | hcase
        · exact (himp1 hcase).1
        · exfalso
          have := (himp2 hcase).2
          have hz' := (magZero_iff c).mp hz
          omega
  · -- (true, false): checked_sub b a.abs
    rw [checked_add_tf_eq a b hga hgb,
      checked_sub_nn_eq b a.abs hgb (Duration.abs_get_neg a)]
    obtain ⟨c, hc, hv, hfsp, himp1, himp2⟩ :=
      sub_nn_spec b a.abs hgb (Duration.abs_get_neg a) hvb (abs_valid a hva)
    rw [abs_magMicros] at himp1 himp2
    rw [signedMicros_of_neg a hga, signedMicros_of_pos b hgb]
    have hma := magMicros_le_max a hva
    have hmb := magMicros_le_max b hvb
    constructor
    · intro hover
      exfalso
      omega
    · intro hle
      refine ⟨c, hc, hv, ?_, by rw [hfsp, abs_fsp, Nat.max_comm], fun _ _ => ?_⟩
      · rcases le_or_lt (magMicros a) (magMicros b) with hcase | hcase
        · obtain ⟨hn, hmag⟩ := himp1 hcase
          rw [signedMicros_of_pos c hn, hmag]
          omega
        · obtain ⟨hn, hmag⟩ := himp2 hcase
          rw [signedMicros_of_neg c hn, hmag]
          omega
      · intro hz
        rcases le_or_lt (magMicros a) (magMicros b) with hcase | hcase
        · exact (himp1 hcase).1
        · exfalso
          have := (himp2 hcase).2
          have hz' := (magZero_iff c).mp hz
          omega
  · -- (true, true)
    rw [checked_add_tt_eq a b hga hgb,
      checked_add_nn_eq a.abs b.abs (Duration.abs_get_neg a) (Duration.abs_get_neg b)]
    rw [signedMicros_of_neg a hga, signedMicros_of_neg b hgb]
    have hva' := abs_valid a hva
    have hvb' := abs_valid b hvb
    constructor
    · intro hover
      rw [add_nn_none a.abs b.abs hva' hvb'
        (by rw [abs_magMicros, abs_magMicros]; omega)]
      rfl
    · intro hle
      obtain ⟨c0, hc0⟩ := add_nn_isSome a.abs b.abs hva' hvb'
        (by rw [abs_magMicros, abs_magMicros]; omega)
      obtain ⟨hv0, hn0, hmag0, hfsp0, -⟩ := add_nn_some a.abs b.abs c0 hva' hvb' hc0
      rw [abs_magMicros, abs_magMicros] at hmag0
      refine ⟨c0.set_neg true, by rw [hc0]; rfl, set_neg_true_valid c0 hv0, ?_,
        ?_, fun hna hnb => ?_⟩
      · rw [signedMicros_of_neg _ (set_neg_true_get_neg c0), set_neg_true_magMicros,
          hmag0]
        push_cast
        ring
      · rw [set_neg_true_fsp, hfsp0, abs_fsp, abs_fsp]
      · intro hz
        exfalso
        have hpa := normalized_neg_pos a hna hga
        have hz' := (magZero_iff _).mp hz
        rw [set_neg_true_magMicros, hmag0] at hz'
        omega

end MysqlTime

namespace MysqlTime

set_option maxHeartbeats 1000000 in
/-- Full characterization of `checked_sub` over valid operands. -/
theorem checked_sub_spec (a b : Duration) (hva : Valid a) (hvb : Valid b) :
    (maxMagMicros < (signedMicros a - signedMicros b).natAbs →
      a.checked_sub b = none) ∧
    ((signedMicros a - signedMicros b).natAbs ≤ maxMagMicros →
      ∃ c, a.checked_sub b = some c ∧ Valid c ∧
        signedMicros c = signedMicros a - signedMicros b ∧ c.fsp = max a.fsp b.fsp ∧
        (Normalized a → Normalized b → Normalized c)) := by
  rcases hga : a.get_neg with _ | _ <;> rcases hgb : b.get_neg with _ | _
  · -- (false, false): sub_nn
    rw [checked_sub_nn_eq a b hga hgb]
    obtain ⟨c, hc, hv, hfsp, himp1, himp2⟩ := sub_nn_spec a b hga hgb hva hvb
    rw [signedMicros_of_pos a hga, signedMicros_of_pos b hgb]
    have hma := magMicros_le_max a hva
    have hmb := magMicros_le_max b hvb
    constructor
    · intro hover
      exfalso
      omega
    · intro hle
      refine ⟨c, hc, hv, ?_, hfsp, fun _ _ => ?_⟩
      · rcases le_or_lt (magMicros b) (magMicros a) with hcase | hcase
        · obtain ⟨hn, hmag⟩ := himp1 hcase
          rw [signedMicros_of_pos c hn, hmag]
          omega
        · obtain ⟨hn, hmag⟩ := himp2 hcase
          rw [signedMicros_of_neg c hn, hmag]
          omega
      · intro hz
        rcases le_or_lt (magMicros b) (magMicros a) with hcase | hcase
        · exact (himp1 hcase).1
        · exfalso
          have := (himp2 hcase).2
          have hz' := (magZero_iff c).mp hz
          omega
  · -- (false, true): checked_add a b.abs, both non-negative
    rw [checked_sub_ft_eq a b hga hgb,
      checked_add_nn_eq a b.abs hga (Duration.abs_get_neg b)]
    rw [signedMicros_of_pos a hga, signedMicros_of_neg b hgb]
    have hva' := hva
    have hvb' := abs_valid b hvb
    constructor
    · intro hover
      rw [add_nn_none a b.abs hva' hvb' (by rw [abs_magMicros]; omega)]
    · intro hle
      obtain ⟨c, hc⟩ := add_nn_isSome a b.abs hva' hvb' (by rw [abs_magMicros]; omega)
      obtain ⟨hv, hn, hmag, hfsp, -⟩ := add_nn_some a b.abs c hva' hvb' hc
      rw [abs_magMicros] at hmag
      refine ⟨c, hc, hv, ?_, by rw [hfsp, abs_fsp], fun _ _ => neg_false_normalized c hn⟩
      rw [signedMicros_of_pos c hn, hmag]
      push_cast
      ring
  · -- (true, false): negated addition of magnitudes
    rw [checked_sub_tf_eq a b hga hgb,
      checked_add_nn_eq a.abs b.abs (Duration.abs_get_neg a) (Duration.abs_get_neg b)]
    rw [signedMicros_of_neg a hga, signedMicros_of_pos b hgb]
    have hva' := abs_valid a hva
    have hvb' := abs_valid b hvb
    constructor
    · intro hover
      rw [add_nn_none a.abs b.abs hva' hvb'
        (by rw [abs_magMicros, abs_magMicros]; omega)]
      rfl
    · intro hle
      obtain ⟨c0, hc0⟩ := add_nn_isSome a.abs b.abs hva' hvb'
        (by rw [abs_magMicros, abs_magMicros]; omega)
      obtain ⟨hv0, hn0, hmag0, hfsp0, -⟩ := add_nn_some a.abs b.abs c0 hva' hvb' hc0
      rw [abs_magMicros, abs_magMicros] at hmag0
      refine ⟨c0.set_neg true, by rw [hc0]; rfl, set_neg_true_valid c0 hv0, ?_,
        ?_, fun hna hnb => ?_⟩
      · rw [signedMicros_of_neg _ (set_neg_true_get_neg c0), set_neg_true_magMicros,
          hmag0]
        push_cast
        ring
      · rw [set_neg_true_fsp, hfsp0, abs_fsp, abs_fsp]
      · intro hz
        exfalso
        have hpa := normalized_neg_pos a hna hga
        have hz' := (magZero_iff _).mp hz
        rw [set_neg_true_magMicros, hmag0] at hz'
        omega
  · -- (true, true): rhs.abs - self.abs
    rw [checked_sub_tt_eq a b hga hgb,
      checked_sub_nn_eq b.abs a.abs (Duration.abs_get_neg b) (Duration.abs_get_neg a)]
    obtain ⟨c, hc, hv, hfsp, himp1, himp2⟩ :=
      sub_nn_spec b.abs a.abs (Duration.abs_get_neg b) (Duration.abs_get_neg a)
        (abs_valid b hvb) (abs_valid a hva)
    rw [abs_magMicros, abs_magMicros] at himp1 himp2
    rw [signedMicros_of_neg a hga, signedMicros_of_neg b hgb]
    have hma := magMicros_le_max a hva
    have hmb := magMicros_le_max b hvb
    constructor
    · intro hover
      exfalso
      omega
    · intro hle
      refine ⟨c, hc, hv, ?_, by rw [hfsp, abs_fsp, abs_fsp, Nat.max_comm], fun _ _ => ?_⟩
      · rcases le_or_lt (magMicros a) (magMicros b) with hcase | hcase
        · obtain ⟨hn, hmag⟩ := himp1 hcase
          rw [signedMicros_of_pos c hn, hmag]
          omega
        · obtain ⟨hn, hmag⟩ := himp2 hcase
          rw [signedMicros_of_neg c hn, hmag]
          omega
      · intro hz
        rcases le_or_lt (magMicros a) (magMicros b) with hcase | hcase
        · exact (himp1 hcase).1
        · exfalso
          have := (himp2 hcase).2
          have hz' := (magZero_iff c).mp hz
          omega

end MysqlTime

namespace MysqlTime

theorem natAbs_signedMicros (d : Duration) : (signedMicros d).natAbs = magMicros d := by
  rcases h : d.get_neg <;> simp [signedMicros, h]

/-- `checked_add` of valid operands only returns valid values. -/
theorem checked_add_valid (a b c : Duration) (hva : Valid a) (hvb : Valid b)
    (h : a.checked_add b = some c) : Valid c := by
  obtain ⟨hnone, hsome⟩ := checked_add_spec a b hva hvb
  rcases le_or_lt ((signedMicros a + signedMicros b).natAbs) maxMagMicros with hle | hgt
  · obtain ⟨c', hc', hv', -⟩ := hsome hle
    rw [h] at hc'
    cases hc'
    exact hv'
  · rw [hnone hgt] at h
    cases h

/-- `checked_sub` of valid operands only returns valid values. -/
theorem checked_sub_valid (a b c : Duration) (hva : Valid a) (hvb : Valid b)
    (h : a.checked_sub b = some c) : Valid c := by
  obtain ⟨hnone, hsome⟩ := checked_sub_spec a b hva hvb
  rcases le_or_lt ((signedMicros a - signedMicros b).natAbs) maxMagMicros with hle | hgt
  · obtain ⟨c', hc', hv', -⟩ := hsome hle
    rw [h] at hc'
    cases hc'
    exact hv'
  · rw [hnone hgt] at h
    cases h

theorem zero_normalized : Normalized Duration.zero := fun _ => by decide

/-- Valid normalized durations with the same signed total and precision are
equal. -/
theorem signed_eq_fields (c d : Duration) (hnc : Normalized c) (hnd : Normalized d)
    (h : signedMicros c = signedMicros d) :
    c.get_neg = d.get_neg ∧ magMicros c = magMicros d := by
  rcases hc : c.get_neg <;> rcases hd : d.get_neg <;>
    simp only [signedMicros, hc, hd, Bool.cond_true, Bool.cond_false] at h
  · exact ⟨rfl, by omega⟩
  · exfalso
    have h2 := normalized_neg_pos d hnd hd
    have h3 : (magMicros c : Int) = -(magMicros d : Int) := by exact_mod_cast h
    omega
  · exfalso
    have h2 := normalized_neg_pos c hnc hc
    have h3 : -(magMicros c : Int) = (magMicros d : Int) := by exact_mod_cast h
    omega
  · exact ⟨rfl, by omega⟩

/-- Adding the `zero()` identity on the right returns the operand exactly. -/
theorem add_zero_exact (d : Duration) (hv : Valid d) (hn : Normalized d) :
    d.checked_add Duration.zero = some d := by
  obtain ⟨-, hsome⟩ := checked_add_spec d Duration.zero hv zero_valid
  have hz : signedMicros Duration.zero = 0 := by decide
  have hle : (signedMicros d + signedMicros Duration.zero).natAbs ≤ maxMagMicros := by
    rw [hz, add_zero, natAbs_signedMicros]
    exact magMicros_le_max d hv
  obtain ⟨c, hc, hvc, hsig, hfsp, hnorm⟩ := hsome hle
  rw [hz, add_zero] at hsig
  obtain ⟨hneg, hmag⟩ := signed_eq_fields c d (hnorm hn zero_normalized) hn hsig
  have heq : c = d := eq_of_fields c d hvc hv hneg hmag (by rw [hfsp, zero_fsp]; omega)
  rw [heq] at hc
  exact hc

/-- Adding the `zero()` identity on the left returns the operand exactly. -/
theorem zero_add_exact (d : Duration) (hv : Valid d) (hn : Normalized d) :
    Duration.zero.checked_add d = some d := by
  obtain ⟨-, hsome⟩ := checked_add_spec Duration.zero d zero_valid hv
  have hz : signedMicros Duration.zero = 0 := by decide
  have hle : (signedMicros Duration.zero + signedMicros d).natAbs ≤ maxMagMicros := by
    rw [hz, zero_add, natAbs_signedMicros]
    exact magMicros_le_max d hv
  obtain ⟨c, hc, hvc, hsig, hfsp, hnorm⟩ := hsome hle
  rw [hz, zero_add] at hsig
  obtain ⟨hneg, hmag⟩ := signed_eq_fields c d (hnorm zero_normalized hn) hn hsig
  have heq : c = d := eq_of_fields c d hvc hv hneg hmag (by rw [hfsp, zero_fsp]; omega)
  rw [heq] at hc
  exact hc

end MysqlTime

namespace MysqlTime

/-- Equality and the hash key ignore the fsp tag. -/
theorem eqDur_set_fsp (d : Duration) (f1 f2 : Nat) :
    eqDur (d.set_fsp f1) (d.set_fsp f2) = true ∧
      hashKey (d.set_fsp f1) = hashKey (d.set_fsp f2) := by
  have h1 : ((d.set_fsp f1).set_fsp 0).bits = ((d.set_fsp f2).set_fsp 0).bits := by
    simp only [set_fsp_bits]
    omega
  constructor
  · simp only [eqDur, h1, beq_self_eq_true]
  · simp only [hashKey, Duration.to_bits, h1]

theorem eqDur_iff_bits0 (a b : Duration) :
    eqDur a b = true ↔ (a.set_fsp 0).bits = (b.set_fsp 0).bits := by
  simp only [eqDur, beq_iff_eq]

set_option maxHeartbeats 2000000 in
/-- For valid, normalized operands the `PartialOrd`/`Ord` comparison agrees
with comparing signed total-microsecond values. -/
theorem cmpDur_eq_intCmp (a b : Duration) (hva : Valid a) (hvb : Valid b)
    (hna : Normalized a) (hnb : Normalized b) :
    cmpDur a b = intCmp (signedMicros a) (signedMicros b) := by
  unfold cmpDur natCmp intCmp
  dsimp only
  rw [set_fsp_get_neg, set_fsp_get_neg]
  rw [bits0_eq_gen a hva, bits0_eq_gen b hvb]
  obtain ⟨-, -, hah, ham, has, hamu⟩ := hva
  obtain ⟨-, -, hbh, hbm, hbs, hbmu⟩ := hvb
  rcases hga : a.get_neg with _ | _ <;> rcases hgb : b.get_neg with _ | _
  · rw [signedMicros_of_pos a hga, signedMicros_of_pos b hgb]
    simp only [Bool.cond_false, Bool.or_self, Bool.false_eq_true, if_false]
    split_ifs <;>
      first
      | rfl
      | (exfalso; simp only [magMicros] at *; omega)
  · rw [signedMicros_of_pos a hga, signedMicros_of_neg b hgb]
    have hbp := normalized_neg_pos b hnb hgb
    simp only [Bool.cond_false, Bool.cond_true, Bool.or_true, eq_self_iff_true, if_true]
    split_ifs <;>
      first
      | rfl
      | (exfalso; simp only [magMicros] at *; omega)
  · rw [signedMicros_of_neg a hga, signedMicros_of_pos b hgb]
    have hap := normalized_neg_pos a hna hga
    simp only [Bool.cond_false, Bool.cond_true, Bool.true_or, eq_self_iff_true, if_true]
    split_ifs <;>
      first
      | rfl
      | (exfalso; simp only [magMicros] at *; omega)
  · rw [signedMicros_of_neg a hga, signedMicros_of_neg b hgb]
    simp only [Bool.cond_true, Bool.or_self, eq_self_iff_true, if_true]
    split_ifs <;>
      first
      | rfl
      | (exfalso; simp only [magMicros] at *; omega)

end MysqlTime

namespace MysqlTime

theorem i32_of_u32_small (n : Nat) (h : n < 2147483648) : i32_of_u32 n = n := by
  unfold i32_of_u32
  omega

/-- On valid operands `to_nanos` is the signed microsecond total scaled by
1000: the sign multiplies the whole sum. -/
theorem to_nanos_eq (d : Duration) (hv : Valid d) :
    d.to_nanos = signedMicros d * 1000 := by
  obtain ⟨-, -, hh, hm, hs, hmu⟩ := hv
  have hsmall : d.hours * 3600 + d.minutes * 60 + d.secs < 2147483648 := by omega
  unfold Duration.to_nanos Duration.to_secs signedMicros magMicros Duration.subsec_micros
    NANOS_PER_SEC
  rw [i32_of_u32_small _ hsmall]
  rcases hg : d.get_neg <;>
    simp only [hg, Bool.cond_false, Bool.cond_true, Bool.false_eq_true, if_false,
      if_true] <;>
    push_cast <;>
    ring

theorem mul_tdiv_cancel_1000 (x : Int) : (x * 1000).tdiv 1000 = x :=
  Int.mul_tdiv_cancel x (by norm_num)

theorem set_fsp_set_fsp (d : Duration) (f v : Nat) :
    (d.set_fsp f).set_fsp v = d.set_fsp v := by
  apply Duration.ext'
  rw [set_fsp_bits, set_fsp_bits, set_fsp_bits]
  omega

/-- `from_micros` run at the signed total of a valid, normalized duration
whose fraction is expressible at its own precision rebuilds the duration
exactly. -/
theorem from_micros_exact (d : Duration) (hv : Valid d) (hn : Normalized d)
    (hf : d.fsp ≤ 6) (hdvd : d.micros % TEN_POW (6 - d.fsp) = 0) :
    Duration.from_micros (signedMicros d) (d.fsp : Int) = .ok d := by
  obtain ⟨hb, hr, hh, hm, hs, hmu⟩ := hv
  have hcf : check_fsp (d.fsp : Int) = .ok d.fsp := by
    unfold check_fsp
    rw [if_neg (by omega)]
    simp only [Int.toNat_natCast]
  unfold Duration.from_micros
  rw [hcf]
  dsimp only
  have h1 : ((signedMicros d).tdiv MICROS_PER_SEC).natAbs =
      d.hours * 3600 + d.minutes * 60 + d.secs := by
    have h1a := natAbs_tdiv' (signedMicros d) 1000000
    push_cast at h1a
    rw [natAbs_signedMicros] at h1a
    rw [show ((signedMicros d).tdiv MICROS_PER_SEC).natAbs =
        ((signedMicros d).tdiv 1000000).natAbs from rfl, h1a]
    simp only [magMicros]
    omega
  have h2 : ((signedMicros d).tmod MICROS_PER_SEC).natAbs = d.micros := by
    have h2a := natAbs_tmod (signedMicros d) 1000000
    push_cast at h2a
    rw [natAbs_signedMicros] at h2a
    rw [show ((signedMicros d).tmod MICROS_PER_SEC).natAbs =
        ((signedMicros d).tmod 1000000).natAbs from rfl, h2a]
    simp only [magMicros]
    omega
  rw [h1, h2]
  have h3 : (d.hours * 3600 + d.minutes * 60 + d.secs) / 3600 % 4294967296 = d.hours := by
    omega
  have h4 : (d.hours * 3600 + d.minutes * 60 + d.secs) % 3600 / 60 = d.minutes := by
    omega
  have h5 : (d.hours * 3600 + d.minutes * 60 + d.secs) % 60 = d.secs := by
    omega
  rw [h3, h4, h5]
  rw [round_exact d.hours d.minutes d.secs d.micros d.fsp hf hh hm hs hmu
    (Nat.dvd_of_mod_eq_zero hdvd)]
  dsimp only
  have hneg : decide (signedMicros d < 0) = d.get_neg := by
    rcases hg : d.get_neg
    · rw [signedMicros_of_pos d hg]
      simp only [decide_eq_false_iff_not, not_lt]
      omega
    · rw [signedMicros_of_neg d hg]
      have hpos := normalized_neg_pos d hn hg
      simp only [decide_eq_true_eq]
      omega
  rw [hneg]
  congr 1
  exact eq_of_fields _ d
    (new_valid _ _ _ _ _ _ hh hm hs hmu)
    ⟨hb, hr, hh, hm, hs, hmu⟩
    (new_get_neg _ _ _ _ _ _)
    (by simp only [magMicros, new_hours, new_minutes, new_secs, new_micros]; omega)
    (by rw [new_fsp]; omega)

/-- Round-trip through the wire codec is the identity for valid, normalized
durations whose fraction is expressible at the declared precision. -/
theorem decode_encode_exact (d : Duration) (hv : Valid d) (hn : Normalized d)
    (hf : d.fsp ≤ 6) (hdvd : d.micros % TEN_POW (6 - d.fsp) = 0) :
    Duration.decode (encode_duration d) = .ok d := by
  unfold Duration.decode encode_duration Duration.from_nanos
  dsimp only
  have hi8 : i8_of_i64 (d.fsp : Int) = (d.fsp : Int) := by
    unfold i8_of_i64
    omega
  rw [hi8, to_nanos_eq d hv, mul_tdiv_cancel_1000]
  exact from_micros_exact d hv hn hf hdvd

end MysqlTime

namespace MysqlTime

/-! ## Supporting lemmas for the claim-level theorems -/

theorem checked_add_none_iff (a b : Duration) (hva : Valid a) (hvb : Valid b) :
    a.checked_add b = none ↔
      maxMagMicros < (signedMicros a + signedMicros b).natAbs := by
  obtain ⟨hnone, hsome⟩ := checked_add_spec a b hva hvb
  constructor
  · intro h
    by_contra hc
    push_neg at hc
    obtain ⟨c, hc', -⟩ := hsome hc
    rw [h] at hc'
    cases hc'
  · exact hnone

theorem checked_sub_none_iff (a b : Duration) (hva : Valid a) (hvb : Valid b) :
    a.checked_sub b = none ↔
      maxMagMicros < (signedMicros a - signedMicros b).natAbs := by
  obtain ⟨hnone, hsome⟩ := checked_sub_spec a b hva hvb
  constructor
  · intro h
    by_contra hc
    push_neg at hc
    obtain ⟨c, hc', -⟩ := hsome hc
    rw [h] at hc'
    cases hc'
  · exact hnone

/-- A digit run longer than seven characters makes `read_int` fail hard. -/
theorem read_int_too_long (s : List Char) (h : 7 < (s.takeWhile Char.isDigit).length) :
    parser.read_int s = none := by
  have hne : (s.takeWhile Char.isDigit).isEmpty = false := by
    rcases he : s.takeWhile Char.isDigit with _ | ⟨c, t⟩
    · rw [he] at h
      simp at h
    · rfl
  unfold parser.read_int parser.digit1
  simp only [hne, Bool.false_eq_true, if_false]
  rw [if_neg (by omega)]

theorem cmpDur_set_fsp_left (d e : Duration) (f1 f2 : Nat) :
    cmpDur (d.set_fsp f1) e = cmpDur (d.set_fsp f2) e := by
  unfold cmpDur
  dsimp only
  rw [set_fsp_set_fsp, set_fsp_set_fsp]

theorem cmpDur_set_fsp_right (e d : Duration) (f1 f2 : Nat) :
    cmpDur e (d.set_fsp f1) = cmpDur e (d.set_fsp f2) := by
  unfold cmpDur
  dsimp only
  rw [set_fsp_set_fsp, set_fsp_set_fsp]

/-! ## Claim-level theorems -/

/-- C1 (amended): every successful construction keeps the reserved bit clear
and the magnitude fields bounded, and `from_bits`, `from_micros`,
`from_nanos`, `from_millis`, `round_frac`, `checked_add` and `checked_sub`
establish the full documented bounds (minutes and seconds at most 59); but
`Duration::parse` only guarantees minutes and seconds at most 99, because the
packed-block reinterpretation feeds two-digit minute/second groups that the
final hour-only check in `round` never re-validates. -/
theorem c1_construction_bounds :
    (∀ input fspI d, Duration.parse input fspI = .ok d →
      d.hours ≤ 838 ∧ d.minutes ≤ 99 ∧ d.secs ≤ 99 ∧ d.micros ≤ 999999 ∧
        d.get_reserved = false) ∧
    (∀ v d, v < 2 ^ 64 → Duration.from_bits v = .ok d → Valid d) ∧
    (∀ mi fspI d, Duration.from_micros mi fspI = .ok d → Valid d) ∧
    (∀ n fspI d, Duration.from_nanos n fspI = .ok d → Valid d) ∧
    (∀ ms fspI d, Duration.from_millis ms fspI = .ok d → Valid d) ∧
    (∀ d fspI d', Valid d → Duration.round_frac d fspI = .ok d' → Valid d') ∧
    (∀ a b c, Valid a → Valid b → a.checked_add b = some c → Valid c) ∧
    (∀ a b c, Valid a → Valid b → a.checked_sub b = some c → Valid c) := by
  refine ⟨?_, ?_, ?_, ?_, ?_, ?_, ?_, ?_⟩
  · intro input fspI d h
    have hp := parse_ok_fields input fspI d h
    exact ⟨hp.1, hp.2.1, hp.2.2.1, hp.2.2.2.1, hp.2.2.2.2.1⟩
  · intro v d hv h
    exact from_bits_valid v d hv h
  · intro mi fspI d h
    exact from_micros_valid mi fspI d h
  · intro n fspI d h
    exact from_nanos_valid n fspI d h
  · intro ms fspI d h
    exact from_millis_valid ms fspI d h
  · intro d fspI d' hv h
    exact round_frac_valid d fspI d' hv h
  · intro a b c hva hvb h
    exact checked_add_valid a b c hva hvb h
  · intro a b c hva hvb h
    exact checked_sub_valid a b c hva hvb h

theorem c1_construction_bounds_witness :
    Duration.parse ("11:22:33".toList) 0 = .ok (Duration.new false 11 22 33 0 0) ∧
      ((Duration.new false 11 22 33 0 0).hours ≤ 838 ∧
        (Duration.new false 11 22 33 0 0).minutes ≤ 99 ∧
        (Duration.new false 11 22 33 0 0).secs ≤ 99 ∧
        (Duration.new false 11 22 33 0 0).micros ≤ 999999 ∧
        (Duration.new false 11 22 33 0 0).get_reserved = false) :=
  ⟨by decide, c1_construction_bounds.1 ("11:22:33".toList) 0 _ (by decide)⟩

theorem c1_construction_bounds_counterexample :
    Duration.parse ("9999".toList) 0 = .ok ⟨99 * 2 ^ 40 + 99 * 2 ^ 32⟩ ∧
      Duration.minutes ⟨99 * 2 ^ 40 + 99 * 2 ^ 32⟩ = 99 ∧
      Duration.secs ⟨99 * 2 ^ 40 + 99 * 2 ^ 32⟩ = 99 := by
  decide

/-- C2 (amended): the zero-magnitude sign normalization `Duration::parse`
performs happens on the combined fields before rounding: whenever the
combined `(hour, minute, second, micros)` tuple is all zero, the parsed sign
is forced to non-negative.  (It is not true of every construction path: the
rounding step itself, `from_bits` and `round_frac` can still produce a
negative zero.) -/
theorem c2_parse_zero_sign (input : List Char) (fspI : Int) (fspN : Nat)
    (d : Duration) (hcf : check_fsp fspI = .ok fspN)
    (hp : Duration.parse input fspI = .ok d)
    (hz : match parser.parse input fspN with
      | some (_, f) =>
        combineFields f.day f.hour f.minute f.second f.fraction = (0, 0, 0, 0)
      | none => True) :
    d.get_neg = false := by
  unfold Duration.parse at hp
  split_ifs at hp
  rw [hcf] at hp
  dsimp only at hp
  rcases hpp : parser.parse input fspN with _ | ⟨ng, F⟩ <;> rw [hpp] at hp hz <;>
    dsimp only at hp hz
  · cases hp
  · rw [hz] at hp
    dsimp only at hp
    rw [if_pos ⟨rfl, rfl, rfl, rfl⟩] at hp
    rcases hr : round 0 0 0 0 fspN with _ | ⟨h', m', s', mi'⟩ <;> rw [hr] at hp <;>
      dsimp only at hp
    · cases hp
    · cases hp
      exact new_get_neg false h' m' s' mi' fspN

theorem c2_parse_zero_sign_witness :
    check_fsp 0 = .ok 0 ∧ Duration.parse ("-0".toList) 0 = .ok ⟨0⟩ ∧
      Duration.get_neg ⟨0⟩ = false :=
  ⟨by decide, by decide,
    c2_parse_zero_sign ("-0".toList) 0 0 ⟨0⟩ (by decide) (by decide)
      (show combineFields (some 0) none none none none = (0, 0, 0, 0) by decide)⟩

theorem c2_parse_zero_sign_counterexample :
    Duration.parse ("-.4".toList) 0 = .ok ⟨2 ^ 63⟩ ∧ MagZero ⟨2 ^ 63⟩ ∧
      Duration.get_neg ⟨2 ^ 63⟩ = true := by
  decide

/-- C3 (amended): the day value combines additively (`final_hour = hour +
24 * day`) exactly when an explicit hour field was captured, and is
reinterpreted as a packed `HHHMMSS` block exactly when the hour field is
absent — but an explicit hour can fail to be captured even after a
whitespace-separated day, because an over-bound hour token backtracks to
`None` (see the counterexample), so "followed by whitespace and another
digit" does not imply the additive rule.  The concrete examples of the claim
themselves hold. -/
theorem c3_day_combination :
    (∀ dayV hourV minuteV secondV microsV,
      combineFields (some dayV) (some hourV) minuteV secondV microsV =
        (hourV + dayV * 24, minuteV.getD 0, secondV.getD 0, microsV.getD 0)) ∧
    (∀ dayV minuteV secondV microsV,
      combineFields (some dayV) none minuteV secondV microsV =
        (dayV / 10000, dayV / 100 % 100, dayV % 100, microsV.getD 0)) ∧
    Duration.parse ("1 12".toList) 0 = .ok (Duration.new false 36 0 0 0 0) ∧
    Duration.parse ("101112".toList) 0 = .ok (Duration.new false 10 11 12 0 0) ∧
    Duration.parse ("1112".toList) 0 = .ok (Duration.new false 0 11 12 0 0) := by
  refine ⟨fun a b c d e => rfl, fun a b c d => rfl, by decide, by decide, by decide⟩

theorem c3_day_combination_counterexample :
    Duration.parse ("1 999".toList) 0 = .ok (Duration.new false 0 0 2 0 0) ∧
      (Duration.new false 0 0 2 0 0).hours < 24 := by
  decide

/-- C4: `round` rounds the microsecond total half-up at the requested
precision with carries propagating all the way into hours, and its only
failure is the rounded hour count exceeding 838, reported as an error and
never clamped; parsing `"11:59:59.999999"` at precision 3 yields a value
formatting as `"12:00:00.000"`. -/
theorem c4_round_half_up :
    (∀ h m s mi f, f ≤ 6 → m ≤ 59 → s ≤ 59 → mi ≤ 999999 →
      round h m s mi f =
        (let g := TEN_POW (6 - f)
         let T := (((h * 60 + m) * 60 + s) * 1000000 + mi + g / 2) / g * g
         if T / 3600000000 ≤ 838 then
           .ok (T / 3600000000, T / 60000000 % 60, T / 1000000 % 60, T % 1000000)
         else .error (.invalidHour (T / 3600000000)))) ∧
    Duration.parse ("11:59:59.999999".toList) 3 = .ok (Duration.new false 12 0 0 0 3) ∧
    (Duration.new false 12 0 0 0 3).format ":" = "12:00:00.000" := by
  exact ⟨fun h m s mi f hf hm hs hmi => round_eq h m s mi f hf hm hs hmi,
    by decide, by decide⟩

theorem c4_round_half_up_witness :
    round 11 59 59 999999 3 = .ok (12, 0, 0, 0) := by
  rw [c4_round_half_up.1 11 59 59 999999 3 (by decide) (by decide) (by decide)
    (by decide)]
  decide

/-- C5 (amended): the encode/decode round-trip is the identity for every
valid duration that is normalized (no negative zero) and whose microsecond
field is expressible at its declared precision.  Values produced by parsing
are microsecond-aligned but need not be normalized: parsing can emit a
negative zero, which decodes to positive zero and breaks the round-trip (see
the counterexample). -/
theorem c5_codec_roundtrip (d : Duration) (hv : Valid d) (hn : Normalized d)
    (hf : d.fsp ≤ 6) (hdvd : d.micros % TEN_POW (6 - d.fsp) = 0) :
    Duration.decode (encode_duration d) = .ok d :=
  decode_encode_exact d hv hn hf hdvd

theorem c5_codec_roundtrip_witness :
    Valid (Duration.new false 11 59 59 999000 3) ∧
      Normalized (Duration.new false 11 59 59 999000 3) ∧
      (Duration.new false 11 59 59 999000 3).fsp ≤ 6 ∧
      (Duration.new false 11 59 59 999000 3).micros %
          TEN_POW (6 - (Duration.new false 11 59 59 999000 3).fsp) = 0 ∧
      Duration.decode (encode_duration (Duration.new false 11 59 59 999000 3)) =
        .ok (Duration.new false 11 59 59 999000 3) :=
  ⟨by decide, by decide, by decide, by decide,
    c5_codec_roundtrip _ (by decide) (by decide) (by decide) (by decide)⟩

theorem c5_codec_roundtrip_counterexample :
    Duration.parse ("-.4".toList) 0 = .ok ⟨2 ^ 63⟩ ∧
      Duration.decode (encode_duration ⟨2 ^ 63⟩) = .ok ⟨0⟩ ∧
      eqDur ⟨0⟩ ⟨2 ^ 63⟩ = false := by
  decide

/-- C6: equality, hashing and ordering all ignore the `fsp` field; the
comparison is the packed-bits comparison with `fsp` zeroed, reversed when
either operand is negative; and on valid, normalized operands it coincides
with comparing the signed total-microsecond values. -/
theorem c6_order_semantics :
    (∀ (d : Duration) (f1 f2 : Nat), eqDur (d.set_fsp f1) (d.set_fsp f2) = true ∧
      hashKey (d.set_fsp f1) = hashKey (d.set_fsp f2)) ∧
    (∀ (d e : Duration) (f1 f2 : Nat), cmpDur (d.set_fsp f1) e = cmpDur (d.set_fsp f2) e ∧
      cmpDur e (d.set_fsp f1) = cmpDur e (d.set_fsp f2)) ∧
    (∀ (a b : Duration), cmpDur a b =
      (if (a.set_fsp 0).get_neg || (b.set_fsp 0).get_neg then
        (natCmp (a.set_fsp 0).bits (b.set_fsp 0).bits).swap
      else natCmp (a.set_fsp 0).bits (b.set_fsp 0).bits)) ∧
    (∀ (a b : Duration), Valid a → Valid b → Normalized a → Normalized b →
      cmpDur a b = intCmp (signedMicros a) (signedMicros b)) :=
  ⟨fun d f1 f2 => eqDur_set_fsp d f1 f2,
    fun d e f1 f2 => ⟨cmpDur_set_fsp_left d e f1 f2, cmpDur_set_fsp_right e d f1 f2⟩,
    fun a b => rfl,
    fun a b hva hvb hna hnb => cmpDur_eq_intCmp a b hva hvb hna hnb⟩

theorem c6_order_semantics_witness :
    Valid (Duration.new false 1 2 3 4 5) ∧ Valid (Duration.new true 0 0 1 0 0) ∧
      Normalized (Duration.new false 1 2 3 4 5) ∧
      Normalized (Duration.new true 0 0 1 0 0) ∧
      cmpDur (Duration.new false 1 2 3 4 5) (Duration.new true 0 0 1 0 0) =
        intCmp (signedMicros (Duration.new false 1 2 3 4 5))
          (signedMicros (Duration.new true 0 0 1 0 0)) :=
  ⟨by decide, by decide, by decide, by decide,
    c6_order_semantics.2.2.2 _ _ (by decide) (by decide) (by decide) (by decide)⟩

/-- C7 (amended): `checked_add` (resp. `checked_sub`) of valid operands
returns `none` exactly when the signed microsecond total of the true sum
(resp. difference) exceeds the 838:59:59.999999 bound in magnitude, and
adding any strictly positive duration to the maximum-magnitude duration
838:59:59.999999 returns `none`.  The claim's particular instance is wrong:
838:59:59 is not the maximum magnitude, and adding one microsecond to it
succeeds (see the counterexample). -/
theorem c7_overflow_none :
    (∀ a b, Valid a → Valid b →
      (a.checked_add b = none ↔
        maxMagMicros < (signedMicros a + signedMicros b).natAbs)) ∧
    (∀ a b, Valid a → Valid b →
      (a.checked_sub b = none ↔
        maxMagMicros < (signedMicros a - signedMicros b).natAbs)) ∧
    (∀ b, Valid b → 0 < signedMicros b →
      (Duration.new false 838 59 59 999999 6).checked_add b = none) := by
  refine ⟨fun a b hva hvb => checked_add_none_iff a b hva hvb,
    fun a b hva hvb => checked_sub_none_iff a b hva hvb, ?_⟩
  intro b hvb hpos
  apply (checked_add_none_iff _ b (by decide) hvb).mpr
  have hs : signedMicros (Duration.new false 838 59 59 999999 6) = 3020399999999 := by
    decide
  rw [hs]
  simp only [maxMagMicros]
  omega

theorem c7_overflow_none_witness :
    (Duration.new false 838 59 59 999999 6).checked_add
      (Duration.new false 0 0 0 1 0) = none :=
  c7_overflow_none.2.2 _ (by decide) (by decide)

theorem c7_overflow_none_counterexample :
    0 < signedMicros (Duration.new false 0 0 0 1 6) ∧
      ((Duration.new false 838 59 59 0 0).checked_add
        (Duration.new false 0 0 0 1 6)).isSome = true := by
  decide

/-- C8 (amended): empty input, a bare minus sign, trailing unconsumed input
and an over-long integer read through `read_int` (more than 7 digits) all
fail with the single invalid-time-format error class; but the
fractional-digits token is read through `read_int_with_fsp`, which has no
length limit, so an over-long fraction run parses successfully (see the
counterexample). -/
theorem c8_parse_failures :
    (∀ fspI, Duration.parse [] fspI = .error .invalidTimeFormat) ∧
    Duration.parse ("-".toList) 0 = .error .invalidTimeFormat ∧
    Duration.parse ("1:2:3x".toList) 0 = .error .invalidTimeFormat ∧
    (∀ s, 7 < (s.takeWhile Char.isDigit).length → parser.read_int s = none) ∧
    Duration.parse ("1:12345678".toList) 0 = .error .invalidTimeFormat :=
  ⟨fun fspI => rfl, by decide, by decide, read_int_too_long, by decide⟩

theorem c8_parse_failures_witness :
    7 < ("123456789".toList.takeWhile Char.isDigit).length ∧
      parser.read_int ("123456789".toList) = none :=
  ⟨by decide, c8_parse_failures.2.2.2.1 ("123456789".toList) (by decide)⟩

theorem c8_parse_failures_counterexample :
    ("99999999".toList.takeWhile Char.isDigit).length = 8 ∧
      Duration.parse ("99999999".toList) 0 = .ok ⟨4294967296⟩ := by
  decide

/-- C9 (amended): `to_nanos` multiplies the entire nanosecond total by the
sign: on every valid duration it equals `±((3600·hours + 60·minutes + secs)
·10⁹ + micros·1000)`.  The sign is not applied only to the microsecond term,
and no sign inconsistency exists (the counterexample exhibits a negative
duration with non-zero microseconds whose value is exactly the naive
sign-then-scale reading the claim calls inconsistent). -/
theorem c9_to_nanos_sign (d : Duration) (hv : Valid d) :
    d.to_nanos = (cond d.get_neg (-1) 1) *
      (((d.hours * 3600 + d.minutes * 60 + d.secs : Nat) : Int) * 1000000000 +
        (d.micros : Int) * 1000) := by
  rw [to_nanos_eq d hv]
  unfold signedMicros magMicros
  rcases hg : d.get_neg <;> simp only [Bool.cond_false, Bool.cond_true] <;>
    push_cast <;> ring

theorem c9_to_nanos_sign_witness :
    Valid (Duration.new false 1 2 3 4 6) ∧
      (Duration.new false 1 2 3 4 6).to_nanos =
        (cond (Duration.new false 1 2 3 4 6).get_neg (-1) 1) *
          ((((Duration.new false 1 2 3 4 6).hours * 3600 +
              (Duration.new false 1 2 3 4 6).minutes * 60 +
              (Duration.new false 1 2 3 4 6).secs : Nat) : Int) * 1000000000 +
            ((Duration.new false 1 2 3 4 6).micros : Int) * 1000) :=
  ⟨by decide, c9_to_nanos_sign _ (by decide)⟩

theorem c9_to_nanos_sign_counterexample :
    (Duration.new true 0 0 1 500000 1).get_neg = true ∧
      (Duration.new true 0 0 1 500000 1).micros ≠ 0 ∧
      (Duration.new true 0 0 1 500000 1).to_nanos =
        -(((3600 * 0 + 60 * 0 + 1) * 1000000000 + 1000 * 500000 : Int)) := by
  decide

/-- C10: `Duration::zero()` is an additive identity for `checked_add` on
every valid, normalized duration, returning the operand itself (hence equal
under the fsp-ignoring equality). -/
theorem c10_zero_identity (d : Duration) (hv : Valid d) (hn : Normalized d) :
    d.checked_add Duration.zero = some d ∧ Duration.zero.checked_add d = some d ∧
      eqDur d d = true :=
  ⟨add_zero_exact d hv hn, zero_add_exact d hv hn, by simp [eqDur]⟩

theorem c10_zero_identity_witness :
    Valid (Duration.new true 1 0 0 0 0) ∧ Normalized (Duration.new true 1 0 0 0 0) ∧
      ((Duration.new true 1 0 0 0 0).checked_add Duration.zero =
          some (Duration.new true 1 0 0 0 0) ∧
        Duration.zero.checked_add (Duration.new true 1 0 0 0 0) =
          some (Duration.new true 1 0 0 0 0) ∧
        eqDur (Duration.new true 1 0 0 0 0) (Duration.new true 1 0 0 0 0) = true) :=
  ⟨by decide, by decide, c10_zero_identity _ (by decide) (by decide)⟩

end MysqlTime
